import Mathlib

/-!
# Verification of the Zariski–Van Kampen braid-monodromy module

Shallow embedding of `src/sage/schemes/curves/zariski_vankampen.py` and proofs
of the specification claims about it.

Conventions of the embedding:

* Numeric values handled by the Python code (floating point samples, exact
  algebraic numbers) are modelled over a generic `LinearOrderedField K`;
  concrete evaluations instantiate `K := ℚ`, and statements about exact
  algebraic data instantiate `K := ℝ` with points in `K × K` standing for
  complex numbers (real part, imaginary part).
* Python `list.sort()` on tuples is modelled by `List.insertionSort` under the
  corresponding lexicographic order (all orders used by the source are total,
  so the sorted result is independent of the sorting algorithm).
* External collaborators (the `sirocco` continuation primitive, scipy's
  Voronoi diagram, Sage's exact root isolation, free/braid group algebra) are
  not part of this repository; they enter the embedding as explicit function
  parameters ("oracles"), except for the commutative-algebra collaborators
  needed by `discrim` (discriminant, resultant, radical over `ℚ[x]`), which
  are implemented concretely on coefficient lists.
* Python `while` loops are modelled either by well-founded recursion or by an
  explicit fuel parameter returning `Option`/`Except` (`none` = the fuel ran
  out before the loop exited).
-/

namespace ZVK

/-! ## Strand continuation tracker: `followstrand` (lines 237–297)

`followstrand` extracts interval coefficients at working precision `prec` and
delegates to the external sirocco primitive `contpath`/`contpath_mp`; on any
exception it retries the whole computation at precision `2 * prec`.  The
primitive is modelled as an oracle `contpath : ℕ → Option A` from the working
precision to either a sample list or a failure, and the unbounded recursion of
the source is modelled with a fuel parameter. -/

/-- Model of `followstrand` (lines 289–297): try the continuation primitive at
precision `prec`; on failure retry the identical call at precision `2 * prec`.
`fuel` bounds the number of attempts so that the definition is total; the
source has no such bound. -/
def followstrandAux {A : Type} (contpath : ℕ → Option A) : ℕ → ℕ → Option A
  | 0, _ => none
  | fuel + 1, prec =>
    match contpath prec with
    | some pts => some pts
    | none => followstrandAux contpath fuel (2 * prec)

/-- If the primitive succeeds at precision `prec`, `followstrand` returns its
sample list unchanged. -/
theorem followstrandAux_success {A : Type} (contpath : ℕ → Option A) (fuel prec : ℕ)
    (pts : A) (h : contpath prec = some pts) :
    followstrandAux contpath (fuel + 1) prec = some pts := by
  simp [followstrandAux, h]

/-- If the primitive fails at precision `prec`, `followstrand` performs the
identical computation at precision `2 * prec`. -/
theorem followstrandAux_retry {A : Type} (contpath : ℕ → Option A) (fuel prec : ℕ)
    (h : contpath prec = none) :
    followstrandAux contpath (fuel + 1) prec = followstrandAux contpath fuel (2 * prec) := by
  simp [followstrandAux, h]

theorem followstrandAux_some_elim {A : Type} (contpath : ℕ → Option A) :
    ∀ fuel prec pts, followstrandAux contpath fuel prec = some pts →
      ∃ k, k < fuel ∧ contpath (2 ^ k * prec) = some pts ∧
        ∀ j, j < k → contpath (2 ^ j * prec) = none := by
  intro fuel
  induction fuel with
  | zero => intro prec pts h; simp [followstrandAux] at h
  | succ n ih =>
    intro prec pts h
    rw [followstrandAux] at h
    cases hc : contpath prec with
    | some q =>
      rw [hc] at h
      refine ⟨0, Nat.succ_pos n, ?_, by omega⟩
      simpa using hc ▸ h
    | none =>
      rw [hc] at h
      obtain ⟨k, hk, hsucc, hfail⟩ := ih (2 * prec) pts h
      refine ⟨k + 1, by omega, ?_, ?_⟩
      · have : 2 ^ (k + 1) * prec = 2 ^ k * (2 * prec) := by ring
        rw [this]; exact hsucc
      · intro j hj
        cases j with
        | zero => simpa using hc
        | succ m =>
          have : 2 ^ (m + 1) * prec = 2 ^ m * (2 * prec) := by ring
          rw [this]; exact hfail m (by omega)

theorem followstrandAux_some_intro {A : Type} (contpath : ℕ → Option A) :
    ∀ k prec, (contpath (2 ^ k * prec)).isSome →
      (followstrandAux contpath (k + 1) prec).isSome := by
  intro k
  induction k with
  | zero =>
    intro prec h
    rcases Option.isSome_iff_exists.mp (by simpa using h) with ⟨pts, hp⟩
    rw [followstrandAux, hp]; rfl
  | succ n ih =>
    intro prec h
    rw [followstrandAux]
    cases hc : contpath prec with
    | some q => rfl
    | none =>
      apply ih (2 * prec)
      have : 2 ^ n * (2 * prec) = 2 ^ (n + 1) * prec := by ring
      rw [this]; exact h

/-- **C4.** `followstrand` returns the continuation primitive's sample list
when the primitive succeeds at precision `prec`; on any failure it retries the
entire identical computation at precision `2 * prec`, recursively and with no
retry bound or precision cap; hence it terminates (some amount of fuel makes
the model succeed) if and only if the primitive succeeds at some precision
`prec * 2 ^ k`, and the value returned is the primitive's answer at the first
such precision. -/
theorem followstrand_doubles_until_success {A : Type} (contpath : ℕ → Option A) (prec : ℕ) :
    (∀ pts fuel, contpath prec = some pts →
        followstrandAux contpath (fuel + 1) prec = some pts) ∧
    (∀ fuel, contpath prec = none →
        followstrandAux contpath (fuel + 1) prec = followstrandAux contpath fuel (2 * prec)) ∧
    ((∃ fuel, (followstrandAux contpath fuel prec).isSome) ↔
      ∃ k, (contpath (2 ^ k * prec)).isSome) ∧
    (∀ fuel pts, followstrandAux contpath fuel prec = some pts →
      ∃ k, k < fuel ∧ contpath (2 ^ k * prec) = some pts ∧
        ∀ j, j < k → contpath (2 ^ j * prec) = none) := by
  refine ⟨fun pts fuel h => followstrandAux_success contpath fuel prec pts h,
    fun fuel h => followstrandAux_retry contpath fuel prec h, ⟨?_, ?_⟩,
    fun fuel pts h => followstrandAux_some_elim contpath fuel prec pts h⟩
  · rintro ⟨fuel, hf⟩
    rcases Option.isSome_iff_exists.mp hf with ⟨pts, hp⟩
    obtain ⟨k, _, hsucc, _⟩ := followstrandAux_some_elim contpath fuel prec pts hp
    exact ⟨k, by simp [hsucc]⟩
  · rintro ⟨k, hk⟩
    exact ⟨k + 1, followstrandAux_some_intro contpath k prec hk⟩

/-- Oracle for the C4 witness: the primitive fails at precisions 53 and 106
and succeeds at 212 (= 53·2²), returning the token `7`. -/
def contpathW : ℕ → Option ℕ := fun prec => if prec = 212 then some 7 else none

/-- Witness for C4 at the concrete oracle `contpathW` and starting precision
53: the primitive succeeds at `2 ^ 2 * 53`, the model terminates, and the
returned value is the primitive's. -/
theorem followstrand_doubles_until_success_witness :
    (∃ fuel, (followstrandAux contpathW fuel 53).isSome) ∧
      followstrandAux contpathW (2 + 1) 53 = some 7 := by
  refine ⟨((followstrand_doubles_until_success contpathW 53).2.2.1).mpr ⟨2, by decide⟩, ?_⟩
  have h1 := (followstrand_doubles_until_success contpathW 53).2.1 2 (by decide)
  have h2 := (followstrand_doubles_until_success contpathW 106).2.1 1 (by decide)
  have h3 := (followstrand_doubles_until_success contpathW 212).1 7 0 (by decide)
  have e1 : (2 : ℕ) * 53 = 106 := by norm_num
  have e2 : (2 : ℕ) * 106 = 212 := by norm_num
  rw [h1, e1, h2, e2, h3]

/-! ## The braid extractor: `braid_from_piecewise` (lines 61–146)

Strand samples `(t, c)` (with `c` a complex number) are modelled as pairs
`K × (K × K)`; the complex value is the pair (real part, imaginary part),
matching the `[value.real(), value.imag()]` points the Python code builds.
Python's comparison of such two-element lists is lexicographic (`ptLt`). -/

variable {K : Type*} [LinearOrderedField K]

/-- A point `[re, im]` of the Python code. -/
abbrev Pt (K : Type*) := K × K

/-- A strand: list of samples `(t, c)`. -/
abbrev Strand (K : Type*) := List (K × Pt K)

/-- Python's `<` on two-element lists `[re, im]`: lexicographic strict order. -/
def ptLt (p q : Pt K) : Prop := p.1 < q.1 ∨ (p.1 = q.1 ∧ p.2 < q.2)

instance : DecidableRel (ptLt (K := K)) := fun p q =>
  inferInstanceAs (Decidable (p.1 < q.1 ∨ (p.1 = q.1 ∧ p.2 < q.2)))

/-- Python's `min` over a nonempty iterable (with a default for `[]`, which the
source never hits on the inputs the claims quantify over). -/
def minD (dflt : K) : List K → K
  | [] => dflt
  | a :: as => as.foldl min a

/-- One strand's update inside the resampling `while` loop (lines 88–99): if
the sample at the current index lies strictly beyond time `i`, append the
linear interpolation and keep the index; otherwise append the sample value and
advance the index. -/
def cpUpdate (i : K) (val : Strand K) (idx : ℕ) : Pt K × ℕ :=
  let cur := val.getD idx (0, (0, 0))
  if i < cur.1 then
    let prev := val.getD (idx - 1) (0, (0, 0))
    let s := (i - prev.1) / (cur.1 - prev.1)
    ((prev.2.1 + (cur.2.1 - prev.2.1) * s, prev.2.2 + (cur.2.2 - prev.2.2) * s), idx)
  else (cur.2, idx + 1)

/-- The common-partition `while i < 1` loop (lines 87–100), with fuel.
State: current partition time `i`, the accumulated rows `total`, and the
per-strand indices.  Returns `none` when the fuel runs out before the loop
condition fails. -/
def cpLoop (L : List (Strand K)) : ℕ → K → List (List (Pt K)) → List ℕ →
    Option (List (List (Pt K)))
  | 0, _, _, _ => none
  | fuel + 1, i, total, indices =>
    if i < 1 then
      let upd := List.zipWith (fun val idx => cpUpdate i val idx) L indices
      let total' := List.zipWith (fun row u => row ++ [u.1]) total upd
      let indices' := upd.map Prod.snd
      let i' := minD 1 (List.zipWith (fun val idx => (val.getD idx (0, (0, 0))).1) L indices')
      cpLoop L fuel i' total' indices'
    else some total

/-- Fuel sufficient for `cpLoop` on well-formed strands (each iteration
advances at least one index). -/
def cpFuel (L : List (Strand K)) : ℕ := (L.map List.length).sum + 1

/-- Lines 83–103: initial state, resampling loop, and the final append of each
strand's last sample. -/
def commonPartitionO (L : List (Strand K)) (fuel : ℕ) : Option (List (List (Pt K))) :=
  let i0 := minD 1 (L.map fun val => (val.getD 1 (0, (0, 0))).1)
  let total0 := L.map fun val => [(val.getD 0 (0, (0, 0))).2]
  let indices0 := L.map fun _ => 1
  (cpLoop L fuel i0 total0 indices0).map fun total =>
    List.zipWith (fun row val => row ++ [(val.getLastD (0, (0, 0))).2]) total L

/-- Total version of the resampling phase, run with the provably sufficient
fuel `cpFuel L` (the `[]` fallback is never reached on well-formed strands,
see the C10 theorem). -/
def commonPartition (L : List (Strand K)) : List (List (Pt K)) :=
  (commonPartitionO L (cpFuel L)).getD []

/-- The ternary comparison `sgn` of lines 108–113. -/
def sgnK (x y : K) : ℤ := if x < y then 1 else if y < x then -1 else 0

/-- A detected crossing `[t, k, j, s]` (line 127). -/
structure Cruz (K : Type*) where
  t : K
  k : ℕ
  j : ℕ
  s : ℤ
  deriving DecidableEq

/-- A re-keyed crossing `(gap, k, j, s)` of line 134, where
`gap = P(j+1) - P(k+1)` under the accumulated permutation. -/
structure GapC where
  gap : ℤ
  k : ℕ
  j : ℕ
  s : ℤ
  deriving DecidableEq

/-- One level of Python's lexicographic tuple comparison: compare the key
`f`; on a tie fall through to the rest of the tuple, compared by `r`. -/
def lexStep {A : Type*} {T : Type*} [LinearOrder T] (f : A → T) (r : A → A → Prop)
    (a b : A) : Prop :=
  f a < f b ∨ (f a = f b ∧ r a b)

theorem lexStep_total {A : Type*} {T : Type*} [LinearOrder T] (f : A → T)
    (r : A → A → Prop) (hr : ∀ a b, r a b ∨ r b a) :
    ∀ a b, lexStep f r a b ∨ lexStep f r b a := by
  intro a b
  rcases lt_trichotomy (f a) (f b) with h | h | h
  · exact Or.inl (Or.inl h)
  · rcases hr a b with h' | h'
    · exact Or.inl (Or.inr ⟨h, h'⟩)
    · exact Or.inr (Or.inr ⟨h.symm, h'⟩)
  · exact Or.inr (Or.inl h)

theorem lexStep_trans {A : Type*} {T : Type*} [LinearOrder T] (f : A → T)
    (r : A → A → Prop) (hr : ∀ a b c, r a b → r b c → r a c) :
    ∀ a b c, lexStep f r a b → lexStep f r b c → lexStep f r a c := by
  intro a b c hab hbc
  rcases hab with h1 | ⟨e1, h1⟩
  · rcases hbc with h2 | ⟨e2, _⟩
    · exact Or.inl (h1.trans h2)
    · exact Or.inl (e2 ▸ h1)
  · rcases hbc with h2 | ⟨e2, h2⟩
    · exact Or.inl (e1 ▸ h2)
    · exact Or.inr ⟨e1.trans e2, hr a b c h1 h2⟩

theorem lexStep_key_le {A : Type*} {T : Type*} [LinearOrder T] (f : A → T)
    (r : A → A → Prop) {a b : A} (h : lexStep f r a b) : f a ≤ f b := by
  rcases h with h | ⟨h, _⟩
  · exact le_of_lt h
  · exact le_of_eq h

/-- Python's lexicographic comparison of the lists `[t, k, j, s]`
(used by `cruces.sort()`, line 129). -/
def cruzLe : Cruz K → Cruz K → Prop :=
  lexStep Cruz.t (lexStep Cruz.k (lexStep Cruz.j fun a b => a.s ≤ b.s))

instance : DecidableRel (cruzLe (K := K)) := fun a b =>
  inferInstanceAs (Decidable (a.t < b.t ∨ (a.t = b.t ∧ (a.k < b.k ∨ (a.k = b.k ∧
    (a.j < b.j ∨ (a.j = b.j ∧ a.s ≤ b.s)))))))

instance : IsTotal (Cruz K) cruzLe :=
  ⟨lexStep_total _ _ (lexStep_total _ _ (lexStep_total _ _ fun a b => le_total a.s b.s))⟩

instance : IsTrans (Cruz K) cruzLe :=
  ⟨lexStep_trans _ _ (lexStep_trans _ _ (lexStep_trans _ _
    fun _ _ _ h1 h2 => le_trans h1 h2))⟩

/-- Python's lexicographic comparison of the tuples `(gap, k, j, s)`
(used by `crossesl.sort()`, line 138). -/
def gapLe : GapC → GapC → Prop :=
  lexStep GapC.gap (lexStep GapC.k (lexStep GapC.j fun a b => a.s ≤ b.s))

instance : DecidableRel gapLe := fun a b =>
  inferInstanceAs (Decidable (a.gap < b.gap ∨ (a.gap = b.gap ∧ (a.k < b.k ∨ (a.k = b.k ∧
    (a.j < b.j ∨ (a.j = b.j ∧ a.s ≤ b.s)))))))

instance : IsTotal GapC gapLe :=
  ⟨lexStep_total _ _ (lexStep_total _ _ (lexStep_total _ _ fun a b => le_total a.s b.s))⟩

instance : IsTrans GapC gapLe :=
  ⟨lexStep_trans _ _ (lexStep_trans _ _ (lexStep_trans _ _
    fun _ _ _ h1 h2 => le_trans h1 h2))⟩

/-- Python's lexicographic comparison of the two-point lists
`[[start], [end]]` (used by `M.sort()`, line 118). -/
def pairPtLe (a b : Pt K × Pt K) : Prop :=
  ptLt a.1 b.1 ∨ (a.1 = b.1 ∧ (ptLt a.2 b.2 ∨ a.2 = b.2))

instance : DecidableRel (pairPtLe (K := K)) := fun a b =>
  inferInstanceAs (Decidable (ptLt a.1 b.1 ∨ (a.1 = b.1 ∧ (ptLt a.2 b.2 ∨ a.2 = b.2))))

/-- Crossing detection for one interval of the common partition
(lines 115–127): sort the strand segments by their start point, then record,
for each inverted pair in end order, the interpolated crossing time, the pair
of (post-sort) strand indices and the orientation sign. -/
def crucesOfInterval (l1 l2 : List (Pt K)) : List (Cruz K) :=
  let M := (l1.zip l2).insertionSort pairPtLe
  let l1s := M.map Prod.fst
  let l2s := M.map Prod.snd
  (List.range l2s.length).flatMap fun j =>
    (List.range j).filterMap fun k =>
      if ptLt (l2s.getD j (0, 0)) (l2s.getD k (0, 0)) then
        let t := ((l1s.getD j (0, 0)).1 - (l1s.getD k (0, 0)).1) /
          ((l2s.getD k (0, 0)).1 - (l1s.getD k (0, 0)).1 +
            (l1s.getD j (0, 0)).1 - (l2s.getD j (0, 0)).1)
        some ⟨t, k, j,
          sgnK ((l1s.getD k (0, 0)).2 * (1 - t) + t * (l2s.getD k (0, 0)).2)
            ((l1s.getD j (0, 0)).2 * (1 - t) + t * (l2s.getD j (0, 0)).2)⟩
      else none

/-- The transposition `(a b)` of `SymmetricGroup`, as a function on `ℕ`. -/
def transp (a b x : ℕ) : ℕ := if x = a then b else if x = b then a else x

/-- The inner tie-break loop (lines 137–143), with one unit of fuel per
iteration: sort the tied crossings by `(gap, k, j, s)`, pop the first, emit
the signed generator at the popped pair's current position, update the running
permutation by the pair's transposition (Sage multiplies permutations
left-to-right, so `P' = fun x => P (transp (k+1) (j+1) x)`), and re-key the
remaining tied crossings under the new permutation.  Returns the emitted
letters and the final permutation. -/
def innerLoopF : ℕ → (ℕ → ℕ) → List GapC → List ℤ × (ℕ → ℕ)
  | 0, P, _ => ([], P)
  | fuel + 1, P, crossesl =>
    match crossesl.insertionSort gapLe with
    | [] => ([], P)
    | c :: rest =>
      let letter : ℤ := c.s * (min (P (c.k + 1)) (P (c.j + 1)) : ℤ)
      let P' : ℕ → ℕ := fun x => P (transp (c.k + 1) (c.j + 1) x)
      let rest' := rest.map fun cr =>
        GapC.mk ((P' (cr.j + 1) : ℤ) - (P' (cr.k + 1) : ℤ)) cr.k cr.j cr.s
      let res := innerLoopF fuel P' rest'
      (letter :: res.1, res.2)

/-- The inner tie-break loop entry point: each iteration removes exactly one
crossing, so `crossesl.length` rounds always suffice. -/
def innerLoop (P : ℕ → ℕ) (crossesl : List GapC) : List ℤ × (ℕ → ℕ) :=
  innerLoopF crossesl.length P crossesl

/-- The outer `while cruces` loop (lines 131–143), with one unit of fuel per
iteration: take the block of crossings sharing the first crossing's time
(`filter`, then drop that many from the front — on the sorted input these
agree with taking the leading equal-time block), process it with the
tie-break loop, and continue with the permutation it produced. -/
def outerLoopF : ℕ → (ℕ → ℕ) → List (Cruz K) → List ℤ
  | 0, _, _ => []
  | fuel + 1, P, cruces =>
    match cruces with
    | [] => []
    | c0 :: tl =>
      let crucesl := (c0 :: tl).filter fun c => decide (c.t = c0.t)
      let crossesl := crucesl.map fun c =>
        GapC.mk ((P (c.j + 1) : ℤ) - (P (c.k + 1) : ℤ)) c.k c.j c.s
      let rest := (c0 :: tl).drop crucesl.length
      let res := innerLoop P crossesl
      res.1 ++ outerLoopF fuel res.2 rest

/-- The outer loop entry point: each iteration removes at least one crossing,
so `cruces.length` rounds always suffice. -/
def outerLoop (P : ℕ → ℕ) (cruces : List (Cruz K)) : List ℤ :=
  outerLoopF cruces.length P cruces

/-- Lines 105–143: the braid word, letters collected interval by interval;
the permutation is re-initialised to the identity for each interval. -/
def braidLetters (tp : List (List (Pt K))) : List ℤ :=
  (List.range ((tp.headD []).length - 1)).flatMap fun i =>
    let l1 := tp.map fun row => row.getD i (0, 0)
    let l2 := tp.map fun row => row.getD (i + 1) (0, 0)
    outerLoop id ((crucesOfInterval l1 l2).insertionSort cruzLe)

/-- `braid_from_piecewise` (lines 61–146), returning the number of strands
(the braid group index, line 145) together with the emitted word. -/
def braidFromPiecewise (L : List (Strand K)) : ℕ × List ℤ :=
  (L.length, braidLetters (commonPartition L))

/-! ## Root matching and `braid_in_segment` (lines 300–377) -/

/-- `(y0ap - y0).norm()`: the squared modulus of the difference. -/
def normSq (p q : Pt K) : K := (p.1 - q.1) * (p.1 - q.1) + (p.2 - q.2) * (p.2 - q.2)

/-- Python's lexicographic comparison of the pairs `(norm, root)` built on
lines 357 and 370 (root ties compared as complex numbers, real part first). -/
def distLe (a b : K × Pt K) : Prop :=
  a.1 < b.1 ∨ (a.1 = b.1 ∧ (ptLt a.2 b.2 ∨ a.2 = b.2))

instance : DecidableRel (distLe (K := K)) := fun a b =>
  inferInstanceAs (Decidable (a.1 < b.1 ∨ (a.1 = b.1 ∧ (ptLt a.2 b.2 ∨ a.2 = b.2))))

/-- `sorted(distances)[0][1]`: the exact root whose `(distance, root)` pair is
lexicographically least. -/
def nearestRoot (ap : Pt K) (roots : List (Pt K)) : Pt K :=
  (((roots.map fun r => (normSq ap r, r)).insertionSort distLe).headD (0, (0, 0))).2

/-- The matching loop of lines 355–362 (identical on lines 366–375): assign to
each approximate endpoint the nearest exact root; raise
`"different roots are too close"` if that root was already assigned to an
earlier endpoint of the same segment.  Returns the assignment list. -/
def matchRootsAux (roots : List (Pt K)) : List (Pt K) → List (Pt K) → Except String (List (Pt K))
  | [], _ => .ok []
  | ap :: aps, used =>
    let y0 := nearestRoot ap roots
    if y0 ∈ used then .error "different roots are too close"
    else
      match matchRootsAux roots aps (used ++ [y0]) with
      | .ok l => .ok (y0 :: l)
      | .error e => .error e

/-- The full matching pass, started with the empty `used` list. -/
def matchRoots (aps roots : List (Pt K)) : Except String (List (Pt K)) :=
  matchRootsAux roots aps []

/-- The approximate strand endpoints at `t = 0` (`y0aps`, line 354): the heads
of the continuation-produced strands. -/
def y0apsOf (roots0 : List (Pt K)) (strandOf : Pt K → Strand K) : List (Pt K) :=
  (roots0.map strandOf).map fun c => (c.headD (0, (0, 0))).2

/-- The approximate strand endpoints at `t = 1` (`y1aps`, line 367): the last
samples of the continuation-produced strands. -/
def y1apsOf (roots0 : List (Pt K)) (strandOf : Pt K → Strand K) : List (Pt K) :=
  (roots0.map strandOf).map fun c => (c.getLastD (0, (0, 0))).2

/-- `braid_in_segment` (lines 300–377).  The external collaborators enter as
parameters: `roots0`/`roots1` model the exact fiber roots Sage computes at the
two endpoints (lines 348–349, 364–365), and `strandOf` models
`followstrand` composed with the float conversion of line 351 (one sample list
per starting root).  The result is the concatenation
`initialbraid * centralbraid * finalbraid` in the braid group on
`len(strands)` strands, or the matching error. -/
def braidInSegment (roots0 roots1 : List (Pt K)) (strandOf : Pt K → Strand K) :
    Except String (ℕ × List ℤ) :=
  let complexstrands := roots0.map strandOf
  let centralbraid := braidFromPiecewise complexstrands
  match matchRoots (y0apsOf roots0 strandOf) roots0 with
  | .error e => .error e
  | .ok assigned0 =>
    let initialstrands := List.zipWith
      (fun y0 y0ap => [((0 : K), y0), ((1 : K), y0ap)]) assigned0 (y0apsOf roots0 strandOf)
    let initialbraid := braidFromPiecewise initialstrands
    match matchRoots (y1apsOf roots0 strandOf) roots1 with
    | .error e => .error e
    | .ok assigned1 =>
      let finalstrands := List.zipWith
        (fun y1ap y1 => [((0 : K), y1ap), ((1 : K), y1)]) (y1apsOf roots0 strandOf) assigned1
      let finalbraid := braidFromPiecewise finalstrands
      .ok (complexstrands.length, initialbraid.2 ++ centralbraid.2 ++ finalbraid.2)

/-! ## C2: the root-matching error -/

theorem matchRootsAux_error_eq (roots : List (Pt K)) :
    ∀ (aps used : List (Pt K)) (e : String),
      matchRootsAux roots aps used = .error e → e = "different roots are too close" := by
  intro aps
  induction aps with
  | nil => intro used e h; simp [matchRootsAux] at h
  | cons ap aps ih =>
    intro used e h
    rw [matchRootsAux] at h
    by_cases hm : nearestRoot ap roots ∈ used
    · simp only [if_pos hm, Except.error.injEq] at h; exact h.symm
    · simp only [if_neg hm] at h
      cases hrec : matchRootsAux roots aps (used ++ [nearestRoot ap roots]) with
      | ok l => rw [hrec] at h; simp at h
      | error e' =>
        rw [hrec] at h
        simp only [Except.error.injEq] at h
        exact h ▸ ih _ e' hrec

theorem matchRootsAux_error_iff (roots : List (Pt K)) :
    ∀ (aps used : List (Pt K)),
      (∃ e, matchRootsAux roots aps used = .error e) ↔
        ¬ ((aps.map fun ap => nearestRoot ap roots).Nodup ∧
            ∀ r ∈ aps.map fun ap => nearestRoot ap roots, r ∉ used) := by
  intro aps
  induction aps with
  | nil =>
    intro used
    simp [matchRootsAux]
  | cons ap aps ih =>
    intro used
    rw [matchRootsAux]
    by_cases hm : nearestRoot ap roots ∈ used
    · simp only [if_pos hm]
      constructor
      · intro _
        intro hcon
        exact (hcon.2 (nearestRoot ap roots) (by simp)) hm
      · intro _; exact ⟨_, rfl⟩
    · simp only [if_neg hm]
      have step : (∃ e, (match matchRootsAux roots aps (used ++ [nearestRoot ap roots]) with
          | .ok l => Except.ok (nearestRoot ap roots :: l)
          | .error e => Except.error e) = Except.error e) ↔
          (∃ e, matchRootsAux roots aps (used ++ [nearestRoot ap roots]) = .error e) := by
        cases hrec : matchRootsAux roots aps (used ++ [nearestRoot ap roots]) with
        | ok l => simp
        | error e' => simp
      rw [step, ih]
      apply not_congr
      constructor
      · rintro ⟨hN, hall⟩
        refine ⟨List.nodup_cons.mpr ⟨?_, hN⟩, ?_⟩
        · intro hmem
          have := hall _ hmem
          rw [List.mem_append] at this
          exact this (Or.inr (List.mem_singleton.mpr rfl))
        · intro r hr
          rcases List.mem_cons.mp hr with rfl | hr'
          · exact hm
          · intro hu
            exact (hall r hr') (List.mem_append.mpr (Or.inl hu))
      · rintro ⟨hN', hall'⟩
        rcases List.nodup_cons.mp hN' with ⟨hnotmem, hN⟩
        refine ⟨hN, ?_⟩
        intro r hr hu
        rcases List.mem_append.mp hu with hu' | hu'
        · exact (hall' r (List.mem_cons.mpr (Or.inr hr))) hu'
        · rw [List.mem_singleton] at hu'
          subst hu'
          exact hnotmem hr

theorem matchRootsAux_ok_eq (roots : List (Pt K)) :
    ∀ (aps used l : List (Pt K)), matchRootsAux roots aps used = .ok l →
      l = aps.map fun ap => nearestRoot ap roots := by
  intro aps
  induction aps with
  | nil =>
    intro used l h
    simp only [matchRootsAux, Except.ok.injEq] at h
    simp [← h]
  | cons ap aps ih =>
    intro used l h
    rw [matchRootsAux] at h
    by_cases hm : nearestRoot ap roots ∈ used
    · simp [if_pos hm] at h
    · simp only [if_neg hm] at h
      cases hrec : matchRootsAux roots aps (used ++ [nearestRoot ap roots]) with
      | ok l' =>
        rw [hrec] at h
        simp only [Except.ok.injEq] at h
        rw [← h, List.map_cons, ih _ _ hrec]
      | error e' => rw [hrec] at h; simp at h

/-- `matchRoots` succeeds exactly when the nearest-root assignment is
duplicate-free, in which case it returns that assignment. -/
theorem matchRoots_ok_iff (aps roots : List (Pt K)) :
    (∃ l, matchRoots aps roots = .ok l) ↔ (aps.map fun ap => nearestRoot ap roots).Nodup := by
  constructor
  · rintro ⟨l, hl⟩
    by_contra hnd
    have herr : ∃ e, matchRootsAux roots aps [] = .error e := by
      apply (matchRootsAux_error_iff roots aps []).mpr
      intro hcon
      exact hnd hcon.1
    rcases herr with ⟨e, he⟩
    rw [matchRoots] at hl
    rw [hl] at he
    exact Except.noConfusion he
  · intro hnd
    cases h : matchRoots aps roots with
    | ok l => exact ⟨l, rfl⟩
    | error e =>
      refine absurd ?_ ((matchRootsAux_error_iff roots aps []).mp ⟨e, h⟩)
      exact ⟨hnd, fun r _ hmem => (List.not_mem_nil r) hmem⟩

/-- **C2.** `braid_in_segment` raises exactly the error
`"different roots are too close"`, and it does so precisely when, during the
nearest-distance matching of the approximate strand endpoints (at `t = 0`, or,
that matching being injective, at `t = 1`) to the exact fiber roots, the exact
root nearest to some approximate endpoint has already been assigned to a
different (earlier) approximate endpoint of the same segment — i.e. when the
nearest-root assignment is not duplicate-free; whenever it returns a braid the
two assignments are duplicate-free, so an exact root is never silently reused
for two different approximate endpoints. -/
theorem braid_in_segment_matching_error (roots0 roots1 : List (Pt K))
    (strandOf : Pt K → Strand K) :
    (∀ e, braidInSegment roots0 roots1 strandOf = .error e →
        e = "different roots are too close") ∧
    ((∃ e, braidInSegment roots0 roots1 strandOf = .error e) ↔
      (¬ ((y0apsOf roots0 strandOf).map fun ap => nearestRoot ap roots0).Nodup ∨
        ((((y0apsOf roots0 strandOf).map fun ap => nearestRoot ap roots0).Nodup) ∧
          ¬ ((y1apsOf roots0 strandOf).map fun ap => nearestRoot ap roots1).Nodup))) ∧
    (∀ nw, braidInSegment roots0 roots1 strandOf = .ok nw →
      (((y0apsOf roots0 strandOf).map fun ap => nearestRoot ap roots0).Nodup ∧
        ((y1apsOf roots0 strandOf).map fun ap => nearestRoot ap roots1).Nodup)) := by
  have hms : ∀ (aps roots : List (Pt K)), matchRoots aps roots = matchRootsAux roots aps [] :=
    fun _ _ => rfl
  have h0 := matchRootsAux_error_iff roots0 (y0apsOf roots0 strandOf) []
  have h1 := matchRootsAux_error_iff roots1 (y1apsOf roots0 strandOf) []
  simp only [List.not_mem_nil, not_false_iff, implies_true, and_true, ← hms] at h0 h1
  cases hm0 : matchRoots (y0apsOf roots0 strandOf) roots0 with
  | error e0 =>
    have he0 : e0 = "different roots are too close" :=
      matchRootsAux_error_eq roots0 _ _ e0 hm0
    have hnd0 : ¬ ((y0apsOf roots0 strandOf).map fun ap => nearestRoot ap roots0).Nodup := by
      intro hnd
      rcases (matchRoots_ok_iff _ roots0).mpr hnd with ⟨l, hl⟩
      rw [hm0] at hl
      exact Except.noConfusion hl
    refine ⟨?_, ?_, ?_⟩
    · intro e he
      simp only [braidInSegment, hm0] at he
      simp only [Except.error.injEq] at he
      exact he ▸ he0
    · simp only [braidInSegment, hm0]
      exact ⟨fun _ => Or.inl hnd0, fun _ => ⟨e0, rfl⟩⟩
    · intro nw hnw
      simp only [braidInSegment, hm0] at hnw
      exact Except.noConfusion hnw
  | ok l0 =>
    have hnd0 : ((y0apsOf roots0 strandOf).map fun ap => nearestRoot ap roots0).Nodup := by
      by_contra hnd
      rcases h0.mpr hnd with ⟨e, he⟩
      rw [hm0] at he
      exact Except.noConfusion he
    cases hm1 : matchRoots (y1apsOf roots0 strandOf) roots1 with
    | error e1 =>
      have he1 : e1 = "different roots are too close" :=
        matchRootsAux_error_eq roots1 _ _ e1 hm1
      have hnd1 : ¬ ((y1apsOf roots0 strandOf).map fun ap => nearestRoot ap roots1).Nodup := by
        intro hnd
        rcases (matchRoots_ok_iff _ roots1).mpr hnd with ⟨l, hl⟩
        rw [hm1] at hl
        exact Except.noConfusion hl
      refine ⟨?_, ?_, ?_⟩
      · intro e he
        simp only [braidInSegment, hm0, hm1] at he
        simp only [Except.error.injEq] at he
        exact he ▸ he1
      · simp only [braidInSegment, hm0, hm1]
        exact ⟨fun _ => Or.inr ⟨hnd0, hnd1⟩, fun _ => ⟨e1, rfl⟩⟩
      · intro nw hnw
        simp only [braidInSegment, hm0, hm1] at hnw
        exact Except.noConfusion hnw
    | ok l1 =>
      have hnd1 : ((y1apsOf roots0 strandOf).map fun ap => nearestRoot ap roots1).Nodup := by
        by_contra hnd
        rcases h1.mpr hnd with ⟨e, he⟩
        rw [hm1] at he
        exact Except.noConfusion he
      refine ⟨?_, ?_, ?_⟩
      · intro e he
        simp only [braidInSegment, hm0, hm1] at he
        exact Except.noConfusion he
      · simp only [braidInSegment, hm0, hm1]
        constructor
        · rintro ⟨e, he⟩
          exact Except.noConfusion he
        · rintro (h | ⟨_, h⟩)
          · exact absurd hnd0 h
          · exact absurd hnd1 h
      · intro nw _
        exact ⟨hnd0, hnd1⟩

/-- Exact roots used by the C2 witness. -/
def rootsW : List (Pt ℚ) := [(0, 0), (2, 0)]

/-- Continuation oracle for the C2 witness: constant strands starting and
ending exactly at the corresponding root (the matching succeeds). -/
def strandOfW : Pt ℚ → Strand ℚ := fun r => [(0, r), (1, r)]

/-- Continuation oracle for the C2 witness error case: all strands collapse to
the origin, so two approximate endpoints share the same nearest exact root. -/
def strandOfWbad : Pt ℚ → Strand ℚ := fun _ => [(0, (0, 0)), (1, (0, 0))]

/-- An `Except` computation whose `toOption` is `some x` returns `ok x`. -/
theorem except_ok_of_toOption {E A : Type} {e : Except E A} {x : A}
    (h : e.toOption = some x) : e = .ok x := by
  cases e with
  | ok a => simpa [Except.toOption] using h
  | error b => simp [Except.toOption] at h

set_option maxRecDepth 8000 in
unseal Rat.mul Rat.add Rat.sub Rat.inv Rat.ofScientific in
/-- Witness for C2: on the collapsing oracle the matching raises (error case of
the characterisation), and on the faithful oracle the run succeeds with
duplicate-free assignments at both endpoints. -/
theorem braid_in_segment_matching_error_witness :
    (∃ e, braidInSegment rootsW rootsW strandOfWbad = Except.error e) ∧
    (((y0apsOf rootsW strandOfW).map fun ap => nearestRoot ap rootsW).Nodup ∧
      ((y1apsOf rootsW strandOfW).map fun ap => nearestRoot ap rootsW).Nodup) := by
  constructor
  · exact (braid_in_segment_matching_error rootsW rootsW strandOfWbad).2.1.mpr
      (Or.inl (by decide))
  · exact (braid_in_segment_matching_error rootsW rootsW strandOfW).2.2 (2, [])
      (except_ok_of_toOption (by decide))

/-! ## C10: termination and shape of the common-partition resampling loop -/

theorem foldlMin_mem : ∀ (as : List K) (a : K), as.foldl min a ∈ a :: as := by
  intro as
  induction as with
  | nil => intro a; simp
  | cons b as ih =>
    intro a
    have h := ih (min a b)
    rw [List.foldl_cons]
    rcases List.mem_cons.mp h with he | hm
    · rcases min_choice a b with h' | h'
      · rw [he, h']; exact List.mem_cons_self _ _
      · rw [he, h']
        exact List.mem_cons.mpr (Or.inr (List.mem_cons_self _ _))
    · exact List.mem_cons.mpr (Or.inr (List.mem_cons.mpr (Or.inr hm)))

theorem minD_mem (d : K) : ∀ l : List K, l ≠ [] → minD d l ∈ l := by
  intro l hl
  cases l with
  | nil => exact absurd rfl hl
  | cons a as => exact foldlMin_mem as a

/-- The per-strand invariant of the resampling loop: the index is at least 1
and at most `len - 1`, the strand has at least two samples, and its last
sample is at time 1. -/
def GoodStrand (val : Strand K) (idx : ℕ) : Prop :=
  1 ≤ idx ∧ idx + 1 ≤ val.length ∧ 2 ≤ val.length ∧
    (val.getD (val.length - 1) (0, (0, 0))).1 = 1

/-- One `cpUpdate` step preserves the invariant, never increases the measure
`len - idx`, and strictly decreases it for a strand whose current sample time
is not beyond `i`. -/
theorem cpUpdate_good (i : K) (hi : i < 1) (val : Strand K) (idx : ℕ)
    (hg : GoodStrand val idx) :
    GoodStrand val (cpUpdate i val idx).2 ∧
      val.length - (cpUpdate i val idx).2 ≤ val.length - idx ∧
      ((val.getD idx (0, (0, 0))).1 ≤ i →
        val.length - (cpUpdate i val idx).2 < val.length - idx) := by
  obtain ⟨hg1, hg2, hg3, hg4⟩ := hg
  unfold cpUpdate
  by_cases hcur : i < (val.getD idx (0, (0, 0))).1
  · simp only [if_pos hcur]
    refine ⟨⟨hg1, hg2, hg3, hg4⟩, le_refl _, ?_⟩
    intro hle
    exact absurd (lt_of_lt_of_le hcur hle) (lt_irrefl i)
  · simp only [if_neg hcur]
    have hidx : idx + 1 ≤ val.length - 1 := by
      by_contra hcon
      have : idx = val.length - 1 := by omega
      rw [this, hg4] at hcur
      exact hcur hi
    refine ⟨⟨by omega, by omega, hg3, hg4⟩, by omega, fun _ => by omega⟩

/-- Elementwise step over the zipped strand/index lists: the invariant is
preserved, the measure does not increase, and it strictly decreases whenever
`i` is attained as some strand's current sample time. -/
theorem cpStep_forall :
    ∀ (Ls : List (Strand K)) (idxs : List ℕ), List.Forall₂ GoodStrand Ls idxs →
      ∀ i : K, i < 1 →
      (List.Forall₂ GoodStrand Ls
          (List.map Prod.snd (List.zipWith (fun val idx => cpUpdate i val idx) Ls idxs)) ∧
        (List.zipWith (fun (val : Strand K) idx => val.length - idx) Ls
            (List.map Prod.snd (List.zipWith (fun val idx => cpUpdate i val idx) Ls idxs))).sum ≤
          (List.zipWith (fun (val : Strand K) idx => val.length - idx) Ls idxs).sum ∧
        (i ∈ List.zipWith (fun (val : Strand K) idx => (val.getD idx (0, (0, 0))).1) Ls idxs →
          (List.zipWith (fun (val : Strand K) idx => val.length - idx) Ls
              (List.map Prod.snd (List.zipWith (fun val idx => cpUpdate i val idx) Ls idxs))).sum <
            (List.zipWith (fun (val : Strand K) idx => val.length - idx) Ls idxs).sum)) := by
  intro Ls idxs h
  induction h with
  | nil =>
    intro i hi
    exact ⟨List.Forall₂.nil, le_refl _, fun hmem => by simp at hmem⟩
  | @cons v idx Ls' idxs' hg hrest ih =>
    intro i hi
    obtain ⟨ihg, ihle, ihlt⟩ := ih i hi
    obtain ⟨sg, sle, slt⟩ := cpUpdate_good i hi v idx hg
    refine ⟨?_, ?_, ?_⟩
    · simpa using List.Forall₂.cons sg ihg
    · simpa using Nat.add_le_add sle ihle
    · intro hmem
      simp only [List.zipWith_cons_cons, List.mem_cons] at hmem
      rcases hmem with he | hm
      · have h1 := slt (le_of_eq he.symm)
        simpa using Nat.add_lt_add_of_lt_of_le h1 ihle
      · have h2 := ihlt hm
        simpa using Nat.add_lt_add_of_le_of_lt sle h2

/-- Appending one point to each row increases every row length by one. -/
theorem rows_snoc {B : Type*} (h : B → Pt K) :
    ∀ (total : List (List (Pt K))) (bs : List B) (m : ℕ),
      (∀ row ∈ total, row.length = m) →
      ∀ row ∈ List.zipWith (fun row b => row ++ [h b]) total bs, row.length = m + 1 := by
  intro total
  induction total with
  | nil => intro bs m _ row hrow; simp at hrow
  | cons r rs ih =>
    intro bs m hm row hrow
    cases bs with
    | nil => simp at hrow
    | cons b bs' =>
      simp only [List.zipWith_cons_cons, List.mem_cons] at hrow
      rcases hrow with he | hm'
      · rw [he]
        simp [hm r (List.mem_cons_self _ _)]
      · exact ih bs' m (fun row' hr => hm row' (List.mem_cons.mpr (Or.inr hr))) row hm'

/-- The resampling loop succeeds with fuel exceeding the measure
`Σ (len_j - idx_j)` and returns rows of one common length. -/
theorem cpLoop_some (L : List (Strand K)) :
    ∀ (fuel : ℕ) (i : K) (total : List (List (Pt K))) (indices : List ℕ) (m : ℕ),
      List.Forall₂ GoodStrand L indices →
      total.length = L.length →
      (∀ row ∈ total, row.length = m) →
      i = minD 1 (List.zipWith (fun val idx => (val.getD idx (0, (0, 0))).1) L indices) →
      (List.zipWith (fun (val : Strand K) idx => val.length - idx) L indices).sum < fuel →
      ∃ total' m', cpLoop L fuel i total indices = some total' ∧
        total'.length = L.length ∧ ∀ row ∈ total', row.length = m' := by
  intro fuel
  induction fuel with
  | zero => intro i total indices m _ _ _ _ hlt; omega
  | succ fuel ih =>
    intro i total indices m hgood htl hrows hmin hlt
    rw [cpLoop]
    by_cases hi : i < 1
    · simp only [if_pos hi]
      obtain ⟨sgood, _, slt⟩ := cpStep_forall L indices hgood i hi
      have hne : List.zipWith (fun (val : Strand K) idx =>
          (val.getD idx (0, (0, 0))).1) L indices ≠ [] := by
        intro hz
        rw [hmin, hz] at hi
        simp [minD] at hi
      have hattain := minD_mem (1 : K) _ hne
      rw [← hmin] at hattain
      have hdec := slt hattain
      have hlen2 : (List.map Prod.snd
          (List.zipWith (fun val idx => cpUpdate i val idx) L indices)).length = L.length := by
        rw [List.length_map, List.length_zipWith, hgood.length_eq, min_self]
      refine ih _ _ _ (m + 1) sgood ?_ ?_ rfl (by omega)
      · rw [List.length_zipWith, htl, List.length_zipWith, hgood.length_eq, min_self, min_self]
      · exact rows_snoc (fun u : Pt K × ℕ => u.1) total _ m hrows
    · simp only [if_neg hi]
      exact ⟨total, m, rfl, htl, hrows⟩

theorem zipWith_map_one {A C : Type*} (f : A → ℕ → C) :
    ∀ l : List A, List.zipWith f l (l.map fun _ => 1) = l.map fun a => f a 1 := by
  intro l
  induction l with
  | nil => rfl
  | cons a l ih => rw [List.map_cons, List.map_cons, List.zipWith_cons_cons, ih]

/-- **C10.** For every nonempty list of strands, each with at least two
samples, strictly increasing times starting at 0 and ending at 1, the
common-partition resampling loop of `braid_from_piecewise` terminates (with
the fuel `cpFuel`), yields one row per strand, and leaves every resampled
strand with the same number of sample points — so the subsequent index
accesses `totalpoints[j][i]`, `l1[j]`, `l2[k]` are within bounds. -/
theorem commonPartition_terminates (L : List (Strand K)) (hne : L ≠ [])
    (hlen : ∀ val ∈ L, 2 ≤ val.length)
    (hinc : ∀ val ∈ L, List.Chain' (· < ·) (val.map Prod.fst))
    (h0 : ∀ val ∈ L, (val.getD 0 (0, (0, 0))).1 = 0)
    (h1 : ∀ val ∈ L, (val.getD (val.length - 1) (0, (0, 0))).1 = 1) :
    ∃ tp, commonPartitionO L (cpFuel L) = some tp ∧ commonPartition L = tp ∧
      tp.length = L.length ∧ ∃ m, ∀ row ∈ tp, row.length = m := by
  have hgood : List.Forall₂ GoodStrand L (L.map fun _ => 1) := by
    rw [List.forall₂_map_right_iff]
    rw [List.forall₂_same]
    intro val hval
    exact ⟨le_refl 1, hlen val hval, hlen val hval, h1 val hval⟩
  have hmin0 : minD 1 (L.map fun val => (val.getD 1 (0, (0, 0))).1) =
      minD 1 (List.zipWith (fun val idx => (val.getD idx (0, (0, 0))).1) L
        (L.map fun _ => 1)) := by
    rw [zipWith_map_one]
  have hmeas : (List.zipWith (fun (val : Strand K) idx => val.length - idx) L
      (L.map fun _ => 1)).sum < cpFuel L := by
    rw [zipWith_map_one]
    unfold cpFuel
    have hle : (L.map fun (a : Strand K) => a.length - 1).sum ≤ (L.map List.length).sum := by
      apply List.sum_le_sum
      intro a _
      omega
    omega
  obtain ⟨total', m', hsome, hlen', hrows'⟩ := cpLoop_some L (cpFuel L)
    (minD 1 (L.map fun val => (val.getD 1 (0, (0, 0))).1)) (L.map fun val =>
      [(val.getD 0 (0, (0, 0))).2]) (L.map fun _ => 1) 1 hgood (by simp)
    (by
      intro row hrow
      rcases List.mem_map.mp hrow with ⟨val, _, rfl⟩
      rfl) hmin0 hmeas
  refine ⟨List.zipWith (fun row val => row ++ [(val.getLastD (0, (0, 0))).2]) total' L,
    ?_, ?_, ?_, m' + 1, ?_⟩
  · simp only [commonPartitionO]
    rw [hsome]
    rfl
  · simp only [commonPartition, commonPartitionO]
    rw [hsome]
    rfl
  · rw [List.length_zipWith, hlen', min_self]
  · exact rows_snoc (fun val : Strand K => (val.getLastD (0, (0, 0))).2) total' L m' hrows'

/-- The concrete strand pair for the C10 witness. -/
def strandsW10 : List (Strand ℚ) :=
  [[(0, (0, 1)), (1 / 2, (1, 0)), (1, (0, -1))],
   [(0, (1, 0)), (1, (0, 0))]]

unseal Rat.mul Rat.add Rat.sub Rat.inv Rat.ofScientific in
/-- Witness for C10 at two concrete rational strands: the loop terminates and
both resampled rows have the same length. -/
theorem commonPartition_terminates_witness :
    ∃ tp, commonPartitionO strandsW10 (cpFuel strandsW10) = some tp ∧
      commonPartition strandsW10 = tp ∧ tp.length = strandsW10.length ∧
      ∃ m, ∀ row ∈ tp, row.length = m :=
  commonPartition_terminates strandsW10 (by decide) (by decide)
    (by
      intro val hval
      simp only [strandsW10, List.mem_cons, List.not_mem_nil, or_false] at hval
      rcases hval with rfl | rfl
      · exact List.chain'_cons.mpr ⟨by decide, List.chain'_cons.mpr ⟨by decide,
          List.chain'_singleton _⟩⟩
      · exact List.chain'_cons.mpr ⟨by decide, List.chain'_singleton _⟩)
    (by decide) (by decide)

/-! ## C3: processing order and tie-breaking of the crossing loop

`outerTrace` is an instrumented copy of `outerLoop`: the same recursion, but
each selection step additionally records the tie-block time, the pending tied
set (with gaps re-keyed under the permutation accumulated so far), the
selected crossing, the permutations before and after the step, and the
emitted letter. -/

/-- One recorded selection step of the tie-break loop. -/
structure Step (K : Type*) where
  t : K
  pending : List GapC
  sel : GapC
  Pb : ℕ → ℕ
  Pa : ℕ → ℕ
  letter : ℤ

/-- Instrumented copy of `innerLoopF`. -/
def innerTraceF : ℕ → K → (ℕ → ℕ) → List GapC → List (Step K) × (ℕ → ℕ)
  | 0, _, P, _ => ([], P)
  | fuel + 1, t0, P, crossesl =>
    match crossesl.insertionSort gapLe with
    | [] => ([], P)
    | c :: rest =>
      let letter : ℤ := c.s * (min (P (c.k + 1)) (P (c.j + 1)) : ℤ)
      let P' : ℕ → ℕ := fun x => P (transp (c.k + 1) (c.j + 1) x)
      let rest' := rest.map fun cr =>
        GapC.mk ((P' (cr.j + 1) : ℤ) - (P' (cr.k + 1) : ℤ)) cr.k cr.j cr.s
      let res := innerTraceF fuel t0 P' rest'
      (⟨t0, crossesl, c, P, P', letter⟩ :: res.1, res.2)

/-- Instrumented copy of `outerLoopF`. -/
def outerTraceF : ℕ → (ℕ → ℕ) → List (Cruz K) → List (Step K)
  | 0, _, _ => []
  | fuel + 1, P, cruces =>
    match cruces with
    | [] => []
    | c0 :: tl =>
      let crucesl := (c0 :: tl).filter fun c => decide (c.t = c0.t)
      let crossesl := crucesl.map fun c =>
        GapC.mk ((P (c.j + 1) : ℤ) - (P (c.k + 1) : ℤ)) c.k c.j c.s
      let rest := (c0 :: tl).drop crucesl.length
      let res := innerTraceF crossesl.length c0.t P crossesl
      res.1 ++ outerTraceF fuel res.2 rest

/-- The selection trace of the crossing-processing loop. -/
def outerTrace (P : ℕ → ℕ) (cruces : List (Cruz K)) : List (Step K) :=
  outerTraceF cruces.length P cruces

theorem innerTraceF_letters :
    ∀ (fuel : ℕ) (t0 : K) (P : ℕ → ℕ) (cs : List GapC),
      (innerTraceF fuel t0 P cs).1.map Step.letter = (innerLoopF fuel P cs).1 ∧
        (innerTraceF fuel t0 P cs).2 = (innerLoopF fuel P cs).2 := by
  intro fuel
  induction fuel with
  | zero => intro t0 P cs; exact ⟨rfl, rfl⟩
  | succ n ih =>
    intro t0 P cs
    rw [innerTraceF, innerLoopF]
    cases hs : cs.insertionSort gapLe with
    | nil => exact ⟨rfl, rfl⟩
    | cons c rest =>
      simp only []
      constructor
      · simp only [List.map_cons]
        rw [(ih t0 _ _).1]
      · exact (ih t0 _ _).2

theorem outerTraceF_letters :
    ∀ (fuel : ℕ) (P : ℕ → ℕ) (cruces : List (Cruz K)),
      (outerTraceF fuel P cruces).map Step.letter = outerLoopF fuel P cruces := by
  intro fuel
  induction fuel with
  | zero => intro P cruces; rfl
  | succ n ih =>
    intro P cruces
    cases cruces with
    | nil => rfl
    | cons c0 tl =>
      rw [outerTraceF, outerLoopF]
      simp only [List.map_append]
      rw [(innerTraceF_letters _ c0.t P _).1, (innerTraceF_letters _ c0.t P _).2, ih]
      rfl

/-- The trace's letters are exactly the braid word emitted by the source
loop. -/
theorem outerTrace_letters (P : ℕ → ℕ) (cruces : List (Cruz K)) :
    (outerTrace P cruces).map Step.letter = outerLoop P cruces :=
  outerTraceF_letters cruces.length P cruces

theorem innerTraceF_count_t :
    ∀ (fuel : ℕ) (t0 : K) (P : ℕ → ℕ) (cs : List GapC), cs.length ≤ fuel →
      (innerTraceF fuel t0 P cs).1.length = cs.length ∧
        ∀ e ∈ (innerTraceF fuel t0 P cs).1, e.t = t0 := by
  intro fuel
  induction fuel with
  | zero =>
    intro t0 P cs hle
    have hnil : cs = [] := List.length_eq_zero.mp (by omega)
    subst hnil
    exact ⟨rfl, by intro e he; simp [innerTraceF] at he⟩
  | succ n ih =>
    intro t0 P cs hle
    rw [innerTraceF]
    cases hs : cs.insertionSort gapLe with
    | nil =>
      have h0 : cs.length = 0 := by
        have hlen := List.length_insertionSort gapLe cs
        rw [hs] at hlen
        simpa using hlen.symm
      refine ⟨by simpa using h0.symm, ?_⟩
      intro e he
      simp at he
    | cons c rest =>
      have hlen : rest.length + 1 = cs.length := by
        have hl := List.length_insertionSort gapLe cs
        rw [hs] at hl
        simpa using hl
      have hih := ih t0 (fun x => P (transp (c.k + 1) (c.j + 1) x))
        (rest.map fun cr =>
          GapC.mk (((fun x => P (transp (c.k + 1) (c.j + 1) x)) (cr.j + 1) : ℤ) -
            ((fun x => P (transp (c.k + 1) (c.j + 1) x)) (cr.k + 1) : ℤ)) cr.k cr.j cr.s)
        (by simp only [List.length_map]; omega)
      constructor
      · simp only [List.length_cons]
        rw [hih.1]
        simp only [List.length_map]
        omega
      · intro e he
        rcases List.mem_cons.mp he with rfl | he'
        · rfl
        · exact hih.2 e he'

theorem sorted_filter_eq_takeWhile (t0 : K) :
    ∀ l : List (Cruz K), List.Sorted cruzLe l → (∀ x ∈ l, t0 ≤ x.t) →
      l.filter (fun c => decide (c.t = t0)) = l.takeWhile fun c => decide (c.t = t0) := by
  intro l
  induction l with
  | nil => intro _ _; rfl
  | cons a tl ih =>
    intro hs hmin
    by_cases ha : a.t = t0
    · rw [List.filter_cons_of_pos (by simp [ha]), List.takeWhile_cons_of_pos (by simp [ha])]
      rw [ih hs.of_cons fun x hx => hmin x (List.mem_cons_of_mem a hx)]
    · rw [List.filter_cons_of_neg (by simp [ha]), List.takeWhile_cons_of_neg (by simp [ha])]
      apply List.filter_eq_nil_iff.mpr
      intro x hx
      have h2 : a.t ≤ x.t := lexStep_key_le _ _ (List.rel_of_sorted_cons hs x hx)
      have h3 : t0 < a.t := lt_of_le_of_ne (hmin a (List.mem_cons_self _ _)) (Ne.symm ha)
      simp only [decide_eq_true_eq]
      exact fun he => absurd he (ne_of_gt (lt_of_lt_of_le h3 h2))

theorem outerTraceF_map_t :
    ∀ (fuel : ℕ) (P : ℕ → ℕ) (cruces : List (Cruz K)),
      List.Sorted cruzLe cruces → cruces.length ≤ fuel →
      (outerTraceF fuel P cruces).map Step.t = cruces.map Cruz.t := by
  intro fuel
  induction fuel with
  | zero =>
    intro P cruces _ hle
    have hnil : cruces = [] := List.length_eq_zero.mp (by omega)
    subst hnil
    rfl
  | succ n ih =>
    intro P cruces hsort hle
    cases cruces with
    | nil => rfl
    | cons c0 tl =>
      rw [outerTraceF]
      simp only [List.map_append]
      have hmin : ∀ x ∈ c0 :: tl, c0.t ≤ x.t := by
        intro x hx
        rcases List.mem_cons.mp hx with rfl | hx'
        · exact le_refl _
        · exact lexStep_key_le _ _ (List.rel_of_sorted_cons hsort x hx')
      have hfil : (c0 :: tl).filter (fun c => decide (c.t = c0.t)) =
          (c0 :: tl).takeWhile (fun c => decide (c.t = c0.t)) :=
        sorted_filter_eq_takeWhile c0.t (c0 :: tl) hsort hmin
      have hpos : 0 < ((c0 :: tl).filter fun c => decide (c.t = c0.t)).length := by
        have hm : c0 ∈ (c0 :: tl).filter fun c => decide (c.t = c0.t) := by
          simp [List.mem_filter]
        exact List.length_pos.mpr fun he => by simp [he] at hm
      have hcount := innerTraceF_count_t
        ((((c0 :: tl).filter fun c => decide (c.t = c0.t)).map fun c =>
          GapC.mk ((P (c.j + 1) : ℤ) - (P (c.k + 1) : ℤ)) c.k c.j c.s).length) c0.t P
        ((((c0 :: tl).filter fun c => decide (c.t = c0.t))).map fun c =>
          GapC.mk ((P (c.j + 1) : ℤ) - (P (c.k + 1) : ℤ)) c.k c.j c.s) (le_refl _)
      have htrace_rep : (innerTraceF
          ((((c0 :: tl).filter fun c => decide (c.t = c0.t)).map fun c =>
            GapC.mk ((P (c.j + 1) : ℤ) - (P (c.k + 1) : ℤ)) c.k c.j c.s).length) c0.t P
          ((((c0 :: tl).filter fun c => decide (c.t = c0.t))).map fun c =>
            GapC.mk ((P (c.j + 1) : ℤ) - (P (c.k + 1) : ℤ)) c.k c.j c.s)).1.map Step.t =
          List.replicate ((c0 :: tl).filter fun c => decide (c.t = c0.t)).length c0.t := by
        apply List.eq_replicate_iff.mpr
        constructor
        · rw [List.length_map, hcount.1, List.length_map]
        · intro b hb
          rcases List.mem_map.mp hb with ⟨e, he, rfl⟩
          exact hcount.2 e he
      have hfilter_rep : ((c0 :: tl).filter fun c => decide (c.t = c0.t)).map Cruz.t =
          List.replicate ((c0 :: tl).filter fun c => decide (c.t = c0.t)).length c0.t := by
        apply List.eq_replicate_iff.mpr
        refine ⟨by rw [List.length_map], ?_⟩
        intro b hb
        rcases List.mem_map.mp hb with ⟨x, hx, rfl⟩
        exact of_decide_eq_true (List.mem_filter.mp hx).2
      have hdrop : (c0 :: tl).drop
          ((c0 :: tl).filter fun c => decide (c.t = c0.t)).length =
          (c0 :: tl).dropWhile fun c => decide (c.t = c0.t) := by
        rw [hfil]
        nth_rewrite 2 [← List.takeWhile_append_dropWhile
          (p := fun c => decide (c.t = c0.t)) (l := c0 :: tl)]
        exact List.drop_left _ _
      have hsort' : List.Sorted cruzLe
          ((c0 :: tl).dropWhile fun c => decide (c.t = c0.t)) :=
        List.Pairwise.sublist (List.dropWhile_sublist _) hsort
      have hlen' : ((c0 :: tl).dropWhile fun c => decide (c.t = c0.t)).length ≤ n := by
        have h1 : ((c0 :: tl).takeWhile fun c => decide (c.t = c0.t)).length +
            ((c0 :: tl).dropWhile fun c => decide (c.t = c0.t)).length =
            (c0 :: tl).length := by
          rw [← List.length_append, List.takeWhile_append_dropWhile]
        rw [← hfil] at h1
        simp only [List.length_cons] at h1 hle
        omega
      rw [htrace_rep, hdrop]
      rw [ih _ _ hsort' hlen']
      conv_rhs =>
        rw [← List.takeWhile_append_dropWhile
          (p := fun c => decide (c.t = c0.t)) (l := c0 :: tl)]
      rw [List.map_append, ← hfil, hfilter_rep]

theorem innerTraceF_steps :
    ∀ (fuel : ℕ) (t0 : K) (P : ℕ → ℕ) (cs : List GapC), cs.length ≤ fuel →
      ∀ e ∈ (innerTraceF fuel t0 P cs).1,
        e.sel ∈ e.pending ∧ (∀ c ∈ e.pending, e.sel.gap ≤ c.gap) ∧
          e.letter = e.sel.s * (min (e.Pb (e.sel.k + 1)) (e.Pb (e.sel.j + 1)) : ℤ) ∧
          ∀ x, e.Pa x = e.Pb (transp (e.sel.k + 1) (e.sel.j + 1) x) := by
  intro fuel
  induction fuel with
  | zero =>
    intro t0 P cs hle e he
    have hnil : cs = [] := List.length_eq_zero.mp (by omega)
    subst hnil
    simp [innerTraceF] at he
  | succ n ih =>
    intro t0 P cs hle e he
    rw [innerTraceF] at he
    cases hs : cs.insertionSort gapLe with
    | nil =>
      rw [hs] at he
      simp at he
    | cons c rest =>
      rw [hs] at he
      have hlen : rest.length + 1 = cs.length := by
        have hl := List.length_insertionSort gapLe cs
        rw [hs] at hl
        simpa using hl
      rcases List.mem_cons.mp he with rfl | he'
      · refine ⟨?_, ?_, rfl, fun x => rfl⟩
        · have : c ∈ cs.insertionSort gapLe := by rw [hs]; exact List.mem_cons_self _ _
          exact (List.mem_insertionSort gapLe).mp this
        · intro x hx
          have hx' : x ∈ cs.insertionSort gapLe := (List.mem_insertionSort gapLe).mpr hx
          rw [hs] at hx'
          rcases List.mem_cons.mp hx' with rfl | hx''
          · exact le_refl _
          · have hsorted := List.sorted_insertionSort gapLe cs
            rw [hs] at hsorted
            exact lexStep_key_le _ _ (List.rel_of_sorted_cons hsorted x hx'')
      · exact ih t0 _ _ (by simp only [List.length_map]; omega) e he'

theorem outerTraceF_steps :
    ∀ (fuel : ℕ) (P : ℕ → ℕ) (cruces : List (Cruz K)), cruces.length ≤ fuel →
      ∀ e ∈ outerTraceF fuel P cruces,
        e.sel ∈ e.pending ∧ (∀ c ∈ e.pending, e.sel.gap ≤ c.gap) ∧
          e.letter = e.sel.s * (min (e.Pb (e.sel.k + 1)) (e.Pb (e.sel.j + 1)) : ℤ) ∧
          ∀ x, e.Pa x = e.Pb (transp (e.sel.k + 1) (e.sel.j + 1) x) := by
  intro fuel
  induction fuel with
  | zero =>
    intro P cruces hle e he
    simp [outerTraceF] at he
  | succ n ih =>
    intro P cruces hle e he
    cases cruces with
    | nil => simp [outerTraceF] at he
    | cons c0 tl =>
      rw [outerTraceF] at he
      rcases List.mem_append.mp he with he' | he'
      · exact innerTraceF_steps _ c0.t P _ (le_refl _) e he'
      · have hpos : 0 < ((c0 :: tl).filter fun c => decide (c.t = c0.t)).length := by
          have hm : c0 ∈ (c0 :: tl).filter fun c => decide (c.t = c0.t) := by
            simp [List.mem_filter]
          exact List.length_pos.mpr fun hnil => by simp [hnil] at hm
        refine ih _ _ ?_ e he'
        simp only [List.length_drop, List.length_cons] at *
        omega

/-- **C3.** Within each interval the crossing-processing loop of
`braid_from_piecewise` handles the detected crossings in non-decreasing
interpolated crossing time (the emission-ordered times are exactly the sorted
times, hence non-decreasing); among crossings tied at the same time it
repeatedly selects a pending pair of minimum index-gap under the accumulated
permutation, appends the letter `s * min(P(k+1), P(j+1))` (sign from the
ternary comparison, position the smaller of the two strands' current permuted
positions), and updates the running permutation by the pair's transposition;
and the output of `braid_from_piecewise` is a deterministic function of the
input strands — two extractions from the same strand set yield the identical
word.  `outerTrace` records the selection steps of the source loop
(`outerLoop`, its letters being `outerTrace`'s letters). -/
theorem braid_crossing_processing_order (P : ℕ → ℕ) (cruces : List (Cruz K)) :
    ((outerTrace P cruces).map Step.letter = outerLoop P cruces) ∧
    ((outerTrace P (cruces.insertionSort cruzLe)).map Step.t =
        (cruces.insertionSort cruzLe).map Cruz.t ∧
      List.Sorted (· ≤ ·) ((outerTrace P (cruces.insertionSort cruzLe)).map Step.t)) ∧
    (∀ e ∈ outerTrace P cruces,
      e.sel ∈ e.pending ∧ (∀ c ∈ e.pending, e.sel.gap ≤ c.gap) ∧
        e.letter = e.sel.s * (min (e.Pb (e.sel.k + 1)) (e.Pb (e.sel.j + 1)) : ℤ) ∧
        ∀ x, e.Pa x = e.Pb (transp (e.sel.k + 1) (e.sel.j + 1) x)) ∧
    (∀ s1 s2 : List (Strand K), s1 = s2 → braidFromPiecewise s1 = braidFromPiecewise s2) := by
  have hmapt := outerTraceF_map_t (cruces.insertionSort cruzLe).length P
    (cruces.insertionSort cruzLe) (List.sorted_insertionSort cruzLe cruces) (le_refl _)
  have hbridge : outerTrace P (cruces.insertionSort cruzLe) =
      outerTraceF (cruces.insertionSort cruzLe).length P (cruces.insertionSort cruzLe) := rfl
  refine ⟨outerTrace_letters P cruces, ⟨?_, ?_⟩,
    fun e he => outerTraceF_steps cruces.length P cruces (le_refl _) e he,
    fun s1 s2 h => h ▸ rfl⟩
  · rw [hbridge, hmapt]
  · rw [hbridge, hmapt]
    exact List.Pairwise.map _ (fun a b hab => lexStep_key_le _ _ hab)
      (List.sorted_insertionSort cruzLe cruces)

/-- Concrete tied crossing list for the C3 witness: two crossings at the same
time `t = 0`. -/
def crucesW : List (Cruz ℚ) := [⟨0, 0, 1, 1⟩, ⟨0, 1, 2, -1⟩]

/-- The first recorded selection step of the loop on `crucesW`. -/
def eW : Step ℚ := ⟨0, [⟨1, 0, 1, 1⟩, ⟨1, 1, 2, -1⟩], ⟨1, 0, 1, 1⟩, id,
  fun x => transp 1 2 x, 1⟩

/-- Concrete strands for the C3 determinism conjunct. -/
def strandsW3 : List (Strand ℚ) := [[(0, (0, 0)), (1, (1, 0))], [(0, (1, 0)), (1, (0, 0))]]

/-- Witness for C3: on the concrete tied crossing list `crucesW` the first
selection step satisfies the tie-break facts, and extraction from a concrete
strand set is deterministic. -/
theorem braid_crossing_processing_order_witness :
    (eW.sel ∈ eW.pending ∧ (∀ c ∈ eW.pending, eW.sel.gap ≤ c.gap) ∧
      eW.letter = eW.sel.s * (min (eW.Pb (eW.sel.k + 1)) (eW.Pb (eW.sel.j + 1)) : ℤ) ∧
      ∀ x, eW.Pa x = eW.Pb (transp (eW.sel.k + 1) (eW.sel.j + 1) x)) ∧
    braidFromPiecewise strandsW3 = braidFromPiecewise strandsW3 := by
  refine ⟨(braid_crossing_processing_order id crucesW).2.2.1 eW ?_,
    (braid_crossing_processing_order id crucesW).2.2.2 strandsW3 strandsW3 rfl⟩
  rw [show outerTrace (K := ℚ) id crucesW = eW :: (outerTrace id crucesW).tail from rfl]
  exact List.mem_cons_self _ _

/-! ## C8: the letters of the emitted braid word -/

/-- `P` permutes `{1, …, n}`: it maps the range into itself injectively. -/
def PermGood (n : ℕ) (P : ℕ → ℕ) : Prop :=
  (∀ x, 1 ≤ x → x ≤ n → 1 ≤ P x ∧ P x ≤ n) ∧
  (∀ x y, 1 ≤ x → x ≤ n → 1 ≤ y → y ≤ n → P x = P y → x = y)

theorem permGood_id (n : ℕ) : PermGood n id :=
  ⟨fun _ h1 h2 => ⟨h1, h2⟩, fun _ _ _ _ _ _ h => h⟩

theorem transp_invol (a b x : ℕ) : transp a b (transp a b x) = x := by
  unfold transp
  split_ifs <;> omega

theorem transp_mem {n a b x : ℕ} (ha1 : 1 ≤ a) (ha2 : a ≤ n) (hb1 : 1 ≤ b) (hb2 : b ≤ n)
    (hx1 : 1 ≤ x) (hx2 : x ≤ n) : 1 ≤ transp a b x ∧ transp a b x ≤ n := by
  unfold transp
  split_ifs <;> omega

theorem permGood_comp_transp {n : ℕ} {P : ℕ → ℕ} {a b : ℕ}
    (ha1 : 1 ≤ a) (ha2 : a ≤ n) (hb1 : 1 ≤ b) (hb2 : b ≤ n) (hP : PermGood n P) :
    PermGood n fun x => P (transp a b x) := by
  constructor
  · intro x h1 h2
    obtain ⟨m1, m2⟩ := transp_mem ha1 ha2 hb1 hb2 h1 h2
    exact hP.1 _ m1 m2
  · intro x y hx1 hx2 hy1 hy2 heq
    obtain ⟨mx1, mx2⟩ := transp_mem ha1 ha2 hb1 hb2 hx1 hx2
    obtain ⟨my1, my2⟩ := transp_mem ha1 ha2 hb1 hb2 hy1 hy2
    have := hP.2 _ _ mx1 mx2 my1 my2 heq
    have h2 := congrArg (transp a b) this
    rwa [transp_invol, transp_invol] at h2

/-- The well-formedness of a re-keyed crossing on `n` strands. -/
def GapOK (n : ℕ) (c : GapC) : Prop := c.k < c.j ∧ c.j < n ∧ c.s.natAbs ≤ 1

theorem innerLoopF_letters_bound (n : ℕ) :
    ∀ (fuel : ℕ) (P : ℕ → ℕ) (cs : List GapC), PermGood n P → (∀ c ∈ cs, GapOK n c) →
      (∀ l ∈ (innerLoopF fuel P cs).1,
          (l = 0 ∨ (1 ≤ l.natAbs ∧ l.natAbs ≤ n - 1)) ∧
            (l = 0 → ∃ c ∈ cs, c.s = 0)) ∧
        PermGood n (innerLoopF fuel P cs).2 := by
  intro fuel
  induction fuel with
  | zero =>
    intro P cs hP _
    exact ⟨fun l hl => by simp [innerLoopF] at hl, hP⟩
  | succ m ih =>
    intro P cs hP hok
    rw [innerLoopF]
    cases hs : cs.insertionSort gapLe with
    | nil => exact ⟨fun l hl => by simp at hl, hP⟩
    | cons c rest =>
      have hc : c ∈ cs := by
        have : c ∈ cs.insertionSort gapLe := by rw [hs]; exact List.mem_cons_self _ _
        exact (List.mem_insertionSort gapLe).mp this
      obtain ⟨hkj, hjn, hs1⟩ := hok c hc
      have hk1 : 1 ≤ c.k + 1 := by omega
      have hk2 : c.k + 1 ≤ n := by omega
      have hj1 : 1 ≤ c.j + 1 := by omega
      have hj2 : c.j + 1 ≤ n := by omega
      have hPk := hP.1 (c.k + 1) hk1 hk2
      have hPj := hP.1 (c.j + 1) hj1 hj2
      have hne : P (c.k + 1) ≠ P (c.j + 1) := by
        intro he
        have := hP.2 _ _ hk1 hk2 hj1 hj2 he
        omega
      have hmin1 : 1 ≤ min (P (c.k + 1)) (P (c.j + 1)) := le_min hPk.1 hPj.1
      have hminn : min (P (c.k + 1)) (P (c.j + 1)) ≤ n - 1 := by
        rcases min_choice (P (c.k + 1)) (P (c.j + 1)) with h | h <;> rw [h] <;> omega
      have hP' : PermGood n fun x => P (transp (c.k + 1) (c.j + 1) x) :=
        permGood_comp_transp hk1 hk2 hj1 hj2 hP
      have hok' : ∀ cr ∈ rest.map fun cr =>
          GapC.mk (((fun x => P (transp (c.k + 1) (c.j + 1) x)) (cr.j + 1) : ℤ) -
            ((fun x => P (transp (c.k + 1) (c.j + 1) x)) (cr.k + 1) : ℤ)) cr.k cr.j cr.s,
          GapOK n cr := by
        intro cr hcr
        rcases List.mem_map.mp hcr with ⟨cr0, hcr0, rfl⟩
        have : cr0 ∈ cs := by
          have : cr0 ∈ cs.insertionSort gapLe := by
            rw [hs]; exact List.mem_cons_of_mem c hcr0
          exact (List.mem_insertionSort gapLe).mp this
        exact hok cr0 this
      obtain ⟨ihl, ihP⟩ := ih _ _ hP' hok'
      refine ⟨?_, ihP⟩
      intro l hl
      rcases List.mem_cons.mp hl with rfl | hl'
      · by_cases hz : c.s = 0
        · refine ⟨Or.inl (by rw [hz]; ring), fun _ => ⟨c, hc, hz⟩⟩
        · have hs1' : c.s.natAbs = 1 := by omega
          have habs : (c.s * (min (P (c.k + 1)) (P (c.j + 1)) : ℤ)).natAbs =
              min (P (c.k + 1)) (P (c.j + 1)) := by
            rw [Int.natAbs_mul, hs1', one_mul, ← Nat.cast_min, Int.natAbs_ofNat]
          refine ⟨Or.inr ⟨by omega, by omega⟩, fun h0 => ?_⟩
          rw [h0] at habs
          simp at habs
          omega
      · obtain ⟨hb, hzero⟩ := ihl l hl'
        refine ⟨hb, fun h0 => ?_⟩
        rcases hzero h0 with ⟨cr, hcr, hcs⟩
        rcases List.mem_map.mp hcr with ⟨cr0, hcr0, rfl⟩
        have : cr0 ∈ cs := by
          have : cr0 ∈ cs.insertionSort gapLe := by
            rw [hs]; exact List.mem_cons_of_mem c hcr0
          exact (List.mem_insertionSort gapLe).mp this
        exact ⟨cr0, this, hcs⟩

theorem outerLoopF_letters_bound (n : ℕ) :
    ∀ (fuel : ℕ) (P : ℕ → ℕ) (cruces : List (Cruz K)), PermGood n P →
      (∀ c ∈ cruces, c.k < c.j ∧ c.j < n ∧ c.s.natAbs ≤ 1) →
      ∀ l ∈ outerLoopF fuel P cruces,
        (l = 0 ∨ (1 ≤ l.natAbs ∧ l.natAbs ≤ n - 1)) ∧ (l = 0 → ∃ c ∈ cruces, c.s = 0) := by
  intro fuel
  induction fuel with
  | zero => intro P cruces _ _ l hl; simp [outerLoopF] at hl
  | succ m ih =>
    intro P cruces hP hok l hl
    cases cruces with
    | nil => simp [outerLoopF] at hl
    | cons c0 tl =>
      rw [outerLoopF] at hl
      have hokg : ∀ c ∈ ((c0 :: tl).filter fun c => decide (c.t = c0.t)).map fun c =>
          GapC.mk ((P (c.j + 1) : ℤ) - (P (c.k + 1) : ℤ)) c.k c.j c.s, GapOK n c := by
        intro c hcm
        rcases List.mem_map.mp hcm with ⟨c1, hc1, rfl⟩
        exact hok c1 (List.mem_of_mem_filter hc1)
      have hinner := innerLoopF_letters_bound n
        ((((c0 :: tl).filter fun c => decide (c.t = c0.t)).map fun c =>
          GapC.mk ((P (c.j + 1) : ℤ) - (P (c.k + 1) : ℤ)) c.k c.j c.s).length) P
        ((((c0 :: tl).filter fun c => decide (c.t = c0.t))).map fun c =>
          GapC.mk ((P (c.j + 1) : ℤ) - (P (c.k + 1) : ℤ)) c.k c.j c.s) hP hokg
      rcases List.mem_append.mp hl with hl' | hl'
      · obtain ⟨hb, hz⟩ := hinner.1 l hl'
        refine ⟨hb, fun h0 => ?_⟩
        rcases hz h0 with ⟨c, hcm, hcs⟩
        rcases List.mem_map.mp hcm with ⟨c1, hc1, rfl⟩
        exact ⟨c1, List.mem_of_mem_filter hc1, hcs⟩
      · have hrest : ∀ c ∈ (c0 :: tl).drop
            ((c0 :: tl).filter fun c => decide (c.t = c0.t)).length,
            c.k < c.j ∧ c.j < n ∧ c.s.natAbs ≤ 1 :=
          fun c hc => hok c (List.mem_of_mem_drop hc)
        obtain ⟨hb, hz⟩ := ih _ _ hinner.2 hrest l hl'
        refine ⟨hb, fun h0 => ?_⟩
        rcases hz h0 with ⟨c, hcm, hcs⟩
        exact ⟨c, List.mem_of_mem_drop hcm, hcs⟩

theorem sgnK_natAbs (x y : K) : (sgnK x y).natAbs ≤ 1 := by
  unfold sgnK
  split_ifs <;> simp

theorem crucesOfInterval_ok (l1 l2 : List (Pt K)) :
    ∀ c ∈ crucesOfInterval l1 l2,
      c.k < c.j ∧ c.j < min l1.length l2.length ∧ c.s.natAbs ≤ 1 := by
  intro c hc
  unfold crucesOfInterval at hc
  simp only [List.mem_flatMap, List.mem_filterMap, List.mem_range] at hc
  obtain ⟨j, hj, k, hk, hsome⟩ := hc
  split_ifs at hsome with hcross
  · simp only [Option.some.injEq] at hsome
    subst hsome
    refine ⟨hk, ?_, sgnK_natAbs _ _⟩
    have hlen : ((l1.zip l2).insertionSort pairPtLe).length = min l1.length l2.length := by
      rw [List.length_insertionSort, List.length_zip]
    rw [List.length_map, hlen] at hj
    exact hj

/-- Decidable check that every detected crossing in every interval of the
common partition has a nonzero ternary sign. -/
def allSignsNonzero (tp : List (List (Pt K))) : Bool :=
  (List.range ((tp.headD []).length - 1)).all fun i =>
    (crucesOfInterval (tp.map fun row => row.getD i (0, 0))
      (tp.map fun row => row.getD (i + 1) (0, 0))).all fun c => decide (c.s ≠ 0)

theorem commonPartition_length_le (L : List (Strand K)) :
    (commonPartition L).length ≤ L.length := by
  simp only [commonPartition, commonPartitionO]
  cases h : cpLoop L (cpFuel L)
      (minD 1 (L.map fun val => (val.getD 1 (0, (0, 0))).1))
      (L.map fun val => [(val.getD 0 (0, (0, 0))).2]) (L.map fun _ => 1) with
  | none => simp
  | some t =>
    simp only [Option.map_some', Option.getD_some]
    rw [List.length_zipWith]
    exact min_le_right _ _

/-- Interval-level version of the letter bound, phrased on an abstract
crossing list so that it applies directly to each interval of
`braidLetters`. -/
theorem intervalLetters_bound (n : ℕ) (cz : List (Cruz K)) (l : ℤ)
    (hl : l ∈ outerLoop id cz)
    (hok : ∀ c ∈ cz, c.k < c.j ∧ c.j < n ∧ c.s.natAbs ≤ 1) :
    (l = 0 ∨ (1 ≤ l.natAbs ∧ l.natAbs ≤ n - 1)) ∧ (l = 0 → ∃ c ∈ cz, c.s = 0) :=
  outerLoopF_letters_bound n cz.length id cz (permGood_id n) hok l hl

theorem braidLetters_bound (tp : List (List (Pt K))) :
    ∀ l ∈ braidLetters tp,
      (l = 0 ∨ (1 ≤ l.natAbs ∧ l.natAbs ≤ tp.length - 1)) ∧
        (l = 0 → ∃ i, i < (tp.headD []).length - 1 ∧
          ∃ c ∈ crucesOfInterval (tp.map fun row => row.getD i (0, 0))
            (tp.map fun row => row.getD (i + 1) (0, 0)), c.s = 0) := by
  intro l hl
  unfold braidLetters at hl
  simp only [List.mem_flatMap, List.mem_range] at hl
  obtain ⟨i, hir, hl⟩ := hl
  obtain ⟨hb, hz⟩ := intervalLetters_bound tp.length _ l hl (by
    intro c hc
    have hc2 := (List.mem_insertionSort cruzLe).mp hc
    have hco := crucesOfInterval_ok _ _ c hc2
    simpa [List.length_map] using hco)
  refine ⟨hb, fun h0 => ?_⟩
  rcases hz h0 with ⟨c, hcm, hcs⟩
  exact ⟨i, hir, c, (List.mem_insertionSort cruzLe).mp hcm, hcs⟩

/-- **C8 (amended).** Every letter of the word emitted by
`braid_from_piecewise` on `n` strands is either `0` or a signed integer of
absolute value in `{1, …, n-1}`; a letter `0` arises only from a crossing
whose ternary sign is `0` (equal interpolated imaginary parts), so under the
hypothesis that every detected crossing has a nonzero sign, every letter lies
in `{-(n-1), …, -1, 1, …, n-1}`. -/
theorem braid_word_letters (L : List (Strand K)) :
    (∀ l ∈ (braidFromPiecewise L).2,
        l = 0 ∨ (1 ≤ l.natAbs ∧ l.natAbs ≤ L.length - 1)) ∧
    (allSignsNonzero (commonPartition L) = true →
      ∀ l ∈ (braidFromPiecewise L).2,
        l ≠ 0 ∧ 1 ≤ l.natAbs ∧ l.natAbs ≤ L.length - 1) := by
  have hlen := commonPartition_length_le L
  constructor
  · intro l hl
    have hb := (braidLetters_bound (commonPartition L) l hl).1
    rcases hb with h0 | ⟨h1, h2⟩
    · exact Or.inl h0
    · exact Or.inr ⟨h1, by omega⟩
  · intro hsigns l hl
    have hb := braidLetters_bound (commonPartition L) l hl
    have hnz : l ≠ 0 := by
      intro h0
      rcases hb.2 h0 with ⟨i, hi, c, hcm, hcs⟩
      rw [allSignsNonzero, List.all_eq_true] at hsigns
      have h1 := hsigns i (List.mem_range.mpr hi)
      rw [List.all_eq_true] at h1
      have h2 := h1 c hcm
      simp only [decide_eq_true_eq] at h2
      exact h2 hcs
    rcases hb.1 with h0 | ⟨h1, h2⟩
    · exact absurd h0 hnz
    · exact ⟨hnz, h1, by omega⟩

/-- Two real strands meeting head-on through the same point: the crossing has
equal interpolated imaginary parts, so the ternary sign is `0`. -/
def strandsX8 : List (Strand ℚ) := [[(0, (0, 0)), (1, (1, 0))], [(0, (1, 0)), (1, (0, 0))]]

set_option maxRecDepth 8000 in
unseal Rat.mul Rat.add Rat.sub Rat.inv Rat.ofScientific in
/-- Counterexample to C8 as stated: on `strandsX8` the emitted word is `[0]` —
the letter `0` does occur when the two crossing strands' interpolated
imaginary parts are equal (the ternary sign returns `0`), so not every letter
lies in `{-(n-1), …, -1, 1, …, n-1}`. -/
theorem braid_word_letter_zero_counterexample :
    braidFromPiecewise strandsX8 = (2, [0]) ∧ (0 : ℤ) ∈ (braidFromPiecewise strandsX8).2 := by
  constructor
  · decide
  · decide

/-- Strands for the C8 witness whose single crossing has distinct interpolated
imaginary parts (nonzero ternary sign). -/
def strandsX8b : List (Strand ℚ) :=
  [[(0, (0, 0)), (1, (1, 1))], [(0, (1, 0)), (1, (0, 2))]]

set_option maxRecDepth 8000 in
unseal Rat.mul Rat.add Rat.sub Rat.inv Rat.ofScientific in
/-- Witness for the amended C8: on `strandsX8b` every crossing has nonzero
sign and the emitted letter `1` is nonzero and within the bound. -/
theorem braid_word_letters_witness :
    (1 : ℤ) ≠ 0 ∧ 1 ≤ (1 : ℤ).natAbs ∧ (1 : ℤ).natAbs ≤ strandsX8b.length - 1 :=
  (braid_word_letters strandsX8b).2 (by decide) 1 (by decide)

/-! ## `fundamental_group` (lines 380–472): C1, C7, C9

The commutative-algebra and numeric collaborators of `fundamental_group` —
Sage's `radical`, `degree`, coefficient/base-field membership test,
`total_degree`, the substitution `x ↦ x + y`, the root isolation inside
`discrim`, scipy's Voronoi `segments`, and the Artin action of the computed
braid on the free group (`Faux([k+1]) * b.inverse()`, whose Tietze word is
`relWord g seg k`) — enter as an oracle structure `AlgOps`.  C1/C7/C9 are
about the assembly logic of `fundamental_group` itself, which these
parameters leave fully exposed. -/

/-- The external collaborators of `fundamental_group`.  `P` is the type of
bivariate polynomials, `C` the type of complex points. -/
structure AlgOps (P : Type) (C : Type) where
  radical : P → P
  degY : P → ℕ
  leadCoefInBase : P → ℕ → Bool
  totalDegree : P → ℕ
  subsXplusY : P → P
  discrim : P → List C
  segments : List C → List (C × C)
  relWord : P → C × C → ℕ → List ℤ

/-- The change-of-variables loop of lines 445–447: substitute `x ↦ x + y`
until the leading `y`-coefficient lies in the base field (and, in the
projective case, until the total degree no longer exceeds the `y`-degree);
the `y`-degree is recomputed each round. -/
def shiftLoop {P C : Type} (ops : AlgOps P C) (projective : Bool) :
    ℕ → P → Option (P × ℕ)
  | 0, _ => none
  | fuel + 1, g =>
    let d := ops.degY g
    if (!ops.leadCoefInBase g d) || (projective && decide (d < ops.totalDegree g)) then
      shiftLoop ops projective fuel (ops.subsXplusY g)
    else some (g, d)

/-- Free reduction of a Tietze word (cancel adjacent letters `a, -a`),
modelling the normal form Sage's free-group arithmetic keeps. -/
def freeReduceAux : List ℤ → List ℤ → List ℤ
  | acc, [] => acc.reverse
  | acc, a :: rest =>
    match acc with
    | [] => freeReduceAux [a] rest
    | b :: acc' =>
      if b + a = 0 then freeReduceAux acc' rest else freeReduceAux (a :: b :: acc') rest

/-- Freely reduce a word. -/
def freeReduce (w : List ℤ) : List ℤ := freeReduceAux [] w

/-- Inverse of a Tietze word: reverse and negate. -/
def wordInv (w : List ℤ) : List ℤ := (w.map fun a => -a).reverse

/-- Product of two free-group elements on Tietze words. -/
def wordMul (a b : List ℤ) : List ℤ := freeReduce (a ++ b)

/-- `prod(F.gen(i) for i in range(d))` (line 455): the product of the first
`d` generators. -/
def genProd (d : ℕ) : List ℤ :=
  (List.range d).foldl (fun acc (i : ℕ) => wordMul acc [(i : ℤ) + 1]) []

/-- A finite presentation: a number of generators and a list of relator
words. -/
structure Pres where
  gens : ℕ
  rels : List (List ℤ)
  deriving DecidableEq

/-- The per-segment relators of lines 457–467: for each segment and each root
index `k`, the relator `w1 / w2` where `w1` re-indexes the Tietze word of
`Faux([k+1]) * b.inverse()` into vertex `i`'s generator block and
`w2 = F([d*j + k + 1])`. -/
def segRelators {P C : Type} [DecidableEq C] (ops : AlgOps P C) (g : P) (d : ℕ)
    (vertices : List C) (segs : List (C × C)) : List (List ℤ) :=
  segs.flatMap fun seg =>
    let i := vertices.indexOf seg.1
    let j := vertices.indexOf seg.2
    (List.range d).map fun k =>
      let el1 := ops.relWord g seg k
      let w1 := el1.map fun a => a.sign * (d * i : ℤ) + a
      let w2 : List ℤ := [(d * j : ℤ) + ((k : ℤ) + 1)]
      freeReduce (w1 ++ wordInv w2)

/-- `fundamental_group` (lines 380–472): radical, change-of-variables loop,
discriminant, Voronoi segments, deduplicated vertices, free group on
`d * len(vertices)` generators, the optional projective relator (the product
of the `d` generators of the reference vertex, appended before the segment
loop), one relator per (segment, root index), and the optional external
Tietze simplification. -/
def fundamentalGroup {P C : Type} [DecidableEq C] (ops : AlgOps P C) (f : P)
    (simplified projective : Bool) (fuel : ℕ) (simplifier : Pres → Pres) : Option Pres :=
  match shiftLoop ops projective fuel (ops.radical f) with
  | none => none
  | some (g, d) =>
    let disc := ops.discrim g
    let segs := ops.segments disc
    let vertices := (segs.flatMap fun s => [s.1, s.2]).dedup
    let projRel : List (List ℤ) := if projective then [genProd d] else []
    let rels := projRel ++ segRelators ops g d vertices segs
    let G : Pres := ⟨d * vertices.length, rels⟩
    some (if simplified then simplifier G else G)

/-- **C1.** Whenever `fundamental_group(f, simplified=False,
projective=False)` succeeds, the returned presentation has exactly
`d * |vertices|` generators, where `d` is the `y`-degree of the squarefree
radical of `f` after the change-of-variables loop and `|vertices|` is the
number of deduplicated endpoints of the Voronoi segments built over the
discriminant points. -/
theorem fundamental_group_generators {P C : Type} [DecidableEq C] (ops : AlgOps P C)
    (f : P) (fuel : ℕ) (simplifier : Pres → Pres) (pres : Pres)
    (h : fundamentalGroup ops f false false fuel simplifier = some pres) :
    ∃ g d, shiftLoop ops false fuel (ops.radical f) = some (g, d) ∧
      pres.gens = d *
        ((ops.segments (ops.discrim g)).flatMap fun s => [s.1, s.2]).dedup.length := by
  unfold fundamentalGroup at h
  cases hs : shiftLoop ops false fuel (ops.radical f) with
  | none => rw [hs] at h; exact Option.noConfusion h
  | some gd =>
    rw [hs] at h
    simp only [Bool.false_eq_true, if_false, Option.some.injEq] at h
    exact ⟨gd.1, gd.2, rfl, by rw [← h]⟩

/-- Toy instantiation of the collaborators for the C1/C7 witnesses:
polynomials are coded by their degree, the discriminant has two points and
the Voronoi diagram two segments with two distinct endpoints. -/
def opsW : AlgOps ℕ ℚ where
  radical := id
  degY := id
  leadCoefInBase := fun _ _ => true
  totalDegree := id
  subsXplusY := id
  discrim := fun _ => [0, 1]
  segments := fun _ => [(0, 1), (1, 0)]
  relWord := fun _ _ k => [(k : ℤ) + 1]

/-- Witness for C1: on the toy collaborators and the degree-5 "polynomial"
the presentation has `5 * 2` generators. -/
theorem fundamental_group_generators_witness :
    ∃ g d, shiftLoop opsW false 1 (opsW.radical 5) = some (g, d) ∧
      ((fundamentalGroup opsW 5 false false 1 id).getD ⟨0, []⟩).gens =
        d * ((opsW.segments (opsW.discrim g)).flatMap fun s => [s.1, s.2]).dedup.length :=
  fundamental_group_generators opsW 5 1 id _ (by rfl)

theorem freeReduceAux_pos :
    ∀ (rest acc : List ℤ), (∀ a ∈ acc, 0 < a) → (∀ a ∈ rest, 0 < a) →
      freeReduceAux acc rest = acc.reverse ++ rest := by
  intro rest
  induction rest with
  | nil => intro acc _ _; simp [freeReduceAux]
  | cons a rest ih =>
    intro acc hacc hrest
    have ha : 0 < a := hrest a (List.mem_cons_self _ _)
    have hrest' : ∀ x ∈ rest, 0 < x := fun x hx => hrest x (List.mem_cons_of_mem a hx)
    cases acc with
    | nil =>
      rw [freeReduceAux]
      have h1 : ∀ x ∈ [a], 0 < x := by
        intro x hx
        rw [List.mem_singleton] at hx
        subst hx
        exact ha
      rw [ih [a] h1 hrest']
      simp
    | cons b acc' =>
      have hb : 0 < b := hacc b (List.mem_cons_self _ _)
      rw [freeReduceAux]
      rw [if_neg (by omega)]
      have h2 : ∀ x ∈ a :: b :: acc', 0 < x := by
        intro x hx
        rcases List.mem_cons.mp hx with rfl | hx'
        · exact ha
        · exact hacc x hx'
      rw [ih (a :: b :: acc') h2 hrest']
      simp

theorem genProd_foldl :
    ∀ (l : List ℕ) (acc : List ℤ), (∀ a ∈ acc, 0 < a) →
      l.foldl (fun acc (i : ℕ) => wordMul acc [(i : ℤ) + 1]) acc =
        acc ++ l.map fun i : ℕ => (i : ℤ) + 1 := by
  intro l
  induction l with
  | nil => intro acc _; simp
  | cons i l ih =>
    intro acc hacc
    rw [List.foldl_cons]
    have hstep : wordMul acc [(i : ℤ) + 1] = acc ++ [(i : ℤ) + 1] := by
      unfold wordMul freeReduce
      rw [freeReduceAux_pos (acc ++ [(i : ℤ) + 1]) [] (by intro a ha; simp at ha) (by
        intro a ha
        rcases List.mem_append.mp ha with h | h
        · exact hacc a h
        · rw [List.mem_singleton] at h; subst h; positivity)]
      simp
    rw [hstep, ih (acc ++ [(i : ℤ) + 1]) (by
      intro a ha
      rcases List.mem_append.mp ha with h | h
      · exact hacc a h
      · rw [List.mem_singleton] at h; subst h; positivity)]
    simp

/-- The projective relator is literally the product of the generators of
index `0, …, d-1` (Tietze word `[1, …, d]`): no cancellation occurs. -/
theorem genProd_eq (d : ℕ) : genProd d = (List.range d).map fun i : ℕ => (i : ℤ) + 1 := by
  unfold genProd
  rw [genProd_foldl (List.range d) [] (by intro a ha; simp at ha)]
  simp

/-- Each segment contributes exactly `d` relators. -/
theorem segRelators_length {P C : Type} [DecidableEq C] (ops : AlgOps P C) (g : P)
    (d : ℕ) (vertices : List C) (segs : List (C × C)) :
    (segRelators ops g d vertices segs).length = d * segs.length := by
  induction segs with
  | nil => rfl
  | cons seg ss ih =>
    unfold segRelators at ih ⊢
    rw [List.flatMap_cons, List.length_append, ih, List.length_map, List.length_range,
      List.length_cons]
    ring

/-- **C7.** With `projective=True` the pre-simplification presentation
contains, in addition to the `d` relators per segment, exactly one extra
relator — prepended before the segment loop — equal to the product of the `d`
generators of the single reference vertex (generator indices `0 … d-1`,
Tietze word `[1, …, d]`); with `projective=False` the relator list consists
of the segment relators only, so that relator is absent. -/
theorem fundamental_group_projective_relator {P C : Type} [DecidableEq C]
    (ops : AlgOps P C) (f : P) (fuel : ℕ) (simplifier : Pres → Pres) :
    (∀ pres, fundamentalGroup ops f false true fuel simplifier = some pres →
      ∃ g d, shiftLoop ops true fuel (ops.radical f) = some (g, d) ∧
        pres.rels = genProd d ::
          segRelators ops g d ((ops.segments (ops.discrim g)).flatMap
            fun s => [s.1, s.2]).dedup (ops.segments (ops.discrim g)) ∧
        genProd d = (List.range d).map (fun i : ℕ => (i : ℤ) + 1) ∧
        (segRelators ops g d ((ops.segments (ops.discrim g)).flatMap
            fun s => [s.1, s.2]).dedup (ops.segments (ops.discrim g))).length =
          d * (ops.segments (ops.discrim g)).length) ∧
    (∀ pres, fundamentalGroup ops f false false fuel simplifier = some pres →
      ∃ g d, shiftLoop ops false fuel (ops.radical f) = some (g, d) ∧
        pres.rels = segRelators ops g d ((ops.segments (ops.discrim g)).flatMap
          fun s => [s.1, s.2]).dedup (ops.segments (ops.discrim g))) := by
  constructor
  · intro pres h
    unfold fundamentalGroup at h
    cases hs : shiftLoop ops true fuel (ops.radical f) with
    | none => rw [hs] at h; exact Option.noConfusion h
    | some gd =>
      rw [hs] at h
      simp only [Bool.false_eq_true, if_false, if_true, Option.some.injEq,
        List.singleton_append] at h
      refine ⟨gd.1, gd.2, rfl, ?_, genProd_eq gd.2, segRelators_length ops gd.1 gd.2 _ _⟩
      rw [← h]
  · intro pres h
    unfold fundamentalGroup at h
    cases hs : shiftLoop ops false fuel (ops.radical f) with
    | none => rw [hs] at h; exact Option.noConfusion h
    | some gd =>
      rw [hs] at h
      simp only [Bool.false_eq_true, if_false, Option.some.injEq,
        List.nil_append] at h
      exact ⟨gd.1, gd.2, rfl, by rw [← h]⟩

/-- Witness for C7 at the toy collaborators. -/
theorem fundamental_group_projective_relator_witness :
    (∃ g d, shiftLoop opsW true 1 (opsW.radical 5) = some (g, d) ∧
      ((fundamentalGroup opsW 5 false true 1 id).getD ⟨0, []⟩).rels = genProd d ::
        segRelators opsW g d ((opsW.segments (opsW.discrim g)).flatMap
          fun s => [s.1, s.2]).dedup (opsW.segments (opsW.discrim g)) ∧
      genProd d = (List.range d).map (fun i : ℕ => (i : ℤ) + 1) ∧
      (segRelators opsW g d ((opsW.segments (opsW.discrim g)).flatMap
          fun s => [s.1, s.2]).dedup (opsW.segments (opsW.discrim g))).length =
        d * (opsW.segments (opsW.discrim g)).length) ∧
    (∃ g d, shiftLoop opsW false 1 (opsW.radical 5) = some (g, d) ∧
      ((fundamentalGroup opsW 5 false false 1 id).getD ⟨0, []⟩).rels =
        segRelators opsW g d ((opsW.segments (opsW.discrim g)).flatMap
          fun s => [s.1, s.2]).dedup (opsW.segments (opsW.discrim g))) :=
  ⟨(fundamental_group_projective_relator opsW 5 1 id).1 _ (by rfl),
    (fundamental_group_projective_relator opsW 5 1 id).2 _ (by rfl)⟩

/-- **C9.** The first step of `fundamental_group` replaces `f` by its
squarefree radical (line 443), so — the radical being idempotent —
`fundamental_group(f)` and `fundamental_group(f.radical())` compute the same
presentation, for every choice of the `simplified` and `projective` flags. -/
theorem fundamental_group_radical_invariant {P C : Type} [DecidableEq C]
    (ops : AlgOps P C) (f : P) (simplified projective : Bool) (fuel : ℕ)
    (simplifier : Pres → Pres)
    (hrad : ops.radical (ops.radical f) = ops.radical f) :
    fundamentalGroup ops f simplified projective fuel simplifier =
      fundamentalGroup ops (ops.radical f) simplified projective fuel simplifier := by
  unfold fundamentalGroup
  rw [hrad]

/-- Witness for C9 at the toy collaborators (whose radical, the identity, is
idempotent). -/
theorem fundamental_group_radical_invariant_witness :
    fundamentalGroup opsW 5 true true 1 id =
      fundamentalGroup opsW (opsW.radical 5) true true 1 id :=
  fundamental_group_radical_invariant opsW 5 true true 1 id rfl

/-! ## C6: `braid_in_segment` for `f = x^2 + y^3` on the segment `1 → 1 + i/2` -/

/-- Complex multiplication on points `(re, im)`. -/
def cmul (z w : Pt K) : Pt K :=
  (z.1 * w.1 - z.2 * w.2, z.1 * w.2 + z.2 * w.1)

/-- Complex cube `z^3`. -/
def ccube (z : Pt K) : Pt K := cmul z (cmul z z)

/-- The fiber of `f = x^2 + y^3` over `x0 = 1`: `f(1, y) = 1 + y^3` has the
three roots `-1` and `1/2 ± (√3/2)·i`.  The parameter `s` stands for `√3`,
constrained by `0 < s` and `s * s = 3` wherever the list is used. -/
def fiberRootsC6 (s : K) : List (Pt K) :=
  [(-1, 0), (1/2, s/2), (1/2, -(s/2))]

theorem braidInSegment_ok_fst (roots0 roots1 : List (Pt K))
    (strandOf : Pt K → Strand K) (nw : ℕ × List ℤ)
    (h : braidInSegment roots0 roots1 strandOf = .ok nw) :
    nw.1 = roots0.length := by
  cases hm0 : matchRoots (y0apsOf roots0 strandOf) roots0 with
  | error e => simp [braidInSegment, hm0] at h
  | ok a0 =>
    cases hm1 : matchRoots (y1apsOf roots0 strandOf) roots1 with
    | error e => simp [braidInSegment, hm0, hm1] at h
    | ok a1 =>
      simp only [braidInSegment, hm0, hm1, Except.ok.injEq] at h
      rw [← h]
      simp

theorem ccube_eq_neg_one_iff (s : K) (hs : 0 < s) (h3 : s * s = 3) (z : Pt K) :
    ccube z = (-1, 0) ↔ z ∈ fiberRootsC6 s := by
  obtain ⟨a, b⟩ := z
  constructor
  · intro h
    have hre : a * (a * a - b * b) - b * (a * b + b * a) = -1 := by
      have := congrArg Prod.fst h
      simpa [ccube, cmul] using this
    have him : a * (a * b + b * a) + b * (a * a - b * b) = 0 := by
      have := congrArg Prod.snd h
      simpa [ccube, cmul] using this
    have hfac : b * (3 * (a * a) - b * b) = 0 := by linear_combination him
    rcases mul_eq_zero.mp hfac with hb | hb
    · -- the real root: b = 0 forces a = -1
      have ha3 : a * a * a + 1 = 0 := by
        rw [hb] at hre; linear_combination hre
      have hfa : (a + 1) * (a * a - a + 1) = 0 := by linear_combination ha3
      have hpos : 0 < a * a - a + 1 := by nlinarith [sq_nonneg (a - 1/2)]
      have ha : a = -1 := by
        rcases mul_eq_zero.mp hfa with h1 | h1
        · linarith
        · exact absurd h1 (by linarith)
      subst ha; subst hb
      simp [fiberRootsC6]
    · -- the conjugate pair: b*b = 3*a*a forces a = 1/2, b = ±s/2
      have hbb : b * b = 3 * (a * a) := by linarith
      have ha3 : a * a * a = 1 / 8 := by
        linear_combination (-1/8) * hre + (-3/8 * a) * hbb
      have hfa : (a - 1/2) * (a * a + a / 2 + 1/4) = 0 := by linear_combination ha3
      have hpos : 0 < a * a + a / 2 + 1/4 := by nlinarith [sq_nonneg (a + 1/4)]
      have ha : a = 1/2 := by
        rcases mul_eq_zero.mp hfa with h1 | h1
        · linarith
        · exact absurd h1 (by linarith)
      subst ha
      have hb34 : b * b = 3 / 4 := by rw [hbb]; ring
      have hbfac : (b - s / 2) * (b + s / 2) = 0 := by
        linear_combination hb34 - (1 / 4) * h3
      rcases mul_eq_zero.mp hbfac with h1 | h1
      · have : b = s / 2 := by linarith
        subst this; simp [fiberRootsC6]
      · have : b = -(s / 2) := by linarith
        subst this; simp [fiberRootsC6]
  · intro hz
    simp only [fiberRootsC6, List.mem_cons, List.mem_singleton,
      List.not_mem_nil, or_false] at hz
    rcases hz with hz | hz | hz <;> rw [hz]
    · norm_num [ccube, cmul, Prod.mk.injEq]
    · refine Prod.ext_iff.mpr ⟨?_, ?_⟩
      · show 1/2 * (1/2 * (1/2) - s/2 * (s/2)) -
          s/2 * (1/2 * (s/2) + s/2 * (1/2)) = -1
        linear_combination (-3/8) * h3
      · show 1/2 * (1/2 * (s/2) + s/2 * (1/2)) +
          s/2 * (1/2 * (1/2) - s/2 * (s/2)) = 0
        linear_combination (-(s/8)) * h3
    · refine Prod.ext_iff.mpr ⟨?_, ?_⟩
      · show 1/2 * (1/2 * (1/2) - -(s/2) * -(s/2)) -
          -(s/2) * (1/2 * -(s/2) + -(s/2) * (1/2)) = -1
        linear_combination (-3/8) * h3
      · show 1/2 * (1/2 * -(s/2) + -(s/2) * (1/2)) +
          -(s/2) * (1/2 * (1/2) - -(s/2) * -(s/2)) = 0
        linear_combination (s/8) * h3

theorem fiberRootsC6_nodup (s : K) (hs : 0 < s) : (fiberRootsC6 s).Nodup := by
  have h1 : ((-1 : K), (0 : K)) ≠ (1/2, s/2) := by
    intro h; have := congrArg Prod.fst h; norm_num at this
  have h2 : ((-1 : K), (0 : K)) ≠ (1/2, -(s/2)) := by
    intro h; have := congrArg Prod.fst h; norm_num at this
  have h4 : ((1 : K)/2, s/2) ≠ (1/2, -(s/2)) := by
    intro h; have := congrArg Prod.snd h; simp at this; linarith
  simp only [fiberRootsC6, List.nodup_cons, List.mem_cons, List.not_mem_nil,
    or_false, not_or, List.nodup_nil, and_true, not_false_iff]
  exact ⟨⟨h1, h2⟩, h4⟩

/-- **C6.** For `f = x^2 + y^3` the fiber over `x0 = 1` is the three roots of
`1 + y^3 = 0`, namely `-1` and `1/2 ± (√3/2)·i` — not two.  Consequently
`braid_in_segment(f, 1, 1 + i/2)` builds its braid on three strands: every
successful result has first component 3, whatever the continuation oracle and
the fiber over `x1` return (the module doctest, line 324, records the answer
`s1` — Tietze word `[2]` — in the braid group on 3 strands, not the word
`[1]` on two strands). -/
theorem braid_in_segment_x2y3 (s : ℝ) (hs : 0 < s) (h3 : s * s = 3)
    (roots1 : List (Pt ℝ)) (strandOf : Pt ℝ → Strand ℝ) :
    (∀ z : Pt ℝ, ccube z = (-1, 0) ↔ z ∈ fiberRootsC6 s) ∧
    (fiberRootsC6 s).length = 3 ∧ (fiberRootsC6 s).Nodup ∧
    ∀ nw, braidInSegment (fiberRootsC6 s) roots1 strandOf = .ok nw →
      nw.1 = 3 :=
  ⟨fun z => ccube_eq_neg_one_iff s hs h3 z, rfl, fiberRootsC6_nodup s hs,
    fun nw h => by rw [braidInSegment_ok_fst _ _ _ _ h]; rfl⟩

/-- Witness for C6 at `s = √3`, with empty oracle data. -/
theorem braid_in_segment_x2y3_witness :
    (0 : ℝ) < Real.sqrt 3 ∧ Real.sqrt 3 * Real.sqrt 3 = 3 ∧
    ((∀ z : Pt ℝ, ccube z = (-1, 0) ↔ z ∈ fiberRootsC6 (Real.sqrt 3)) ∧
      (fiberRootsC6 (Real.sqrt 3)).length = 3 ∧
      (fiberRootsC6 (Real.sqrt 3)).Nodup ∧
      ∀ nw, braidInSegment (fiberRootsC6 (Real.sqrt 3)) [] (fun _ => []) =
          .ok nw → nw.1 = 3) :=
  ⟨Real.sqrt_pos.mpr (by norm_num), Real.mul_self_sqrt (by norm_num),
    braid_in_segment_x2y3 (Real.sqrt 3) (Real.sqrt_pos.mpr (by norm_num))
      (Real.mul_self_sqrt (by norm_num)) [] (fun _ => [])⟩

/-- Counterexample to C6 as stated: the fiber of `x^2 + y^3` over `x0 = 1`
consists of the three cube roots of `-1` (first conjunct), and with those
roots `braid_in_segment` never returns the claimed 2-strand braid word `[1]`
— here shown for the concrete constant continuation oracle. -/
theorem braid_in_segment_x2y3_counterexample :
    (∀ z : Pt ℝ, ccube z = (-1, 0) ↔ z ∈ fiberRootsC6 (Real.sqrt 3)) ∧
    braidInSegment (fiberRootsC6 (Real.sqrt 3)) (fiberRootsC6 (Real.sqrt 3))
      (fun r => [((0 : ℝ), r), (1, r)]) ≠ .ok (2, [1]) := by
  have hs : (0 : ℝ) < Real.sqrt 3 := Real.sqrt_pos.mpr (by norm_num)
  have h3 : Real.sqrt 3 * Real.sqrt 3 = 3 := Real.mul_self_sqrt (by norm_num)
  refine ⟨fun z => ccube_eq_neg_one_iff _ hs h3 z, fun h => ?_⟩
  have h2 := braidInSegment_ok_fst _ _ _ _ h
  norm_num [fiberRootsC6] at h2

/-! ## C5: `discrim` on `f = (y^3 + x^3 - 1)(x + y)` -/

/-- Dense univariate rational polynomials, coefficients in ascending order. -/
abbrev QPoly := List ℚ

/-- Polynomials in `y` over `ℚ[x]`, coefficients in ascending powers of `y`. -/
abbrev BPoly := List QPoly

/-- Strip trailing zero coefficients. -/
def qtrim (p : QPoly) : QPoly :=
  (p.reverse.dropWhile fun a => decide (a = 0)).reverse

def qadd : QPoly → QPoly → QPoly
  | [], q => q
  | p, [] => p
  | a :: p, b :: q => (a + b) :: qadd p q

def qmul : QPoly → QPoly → QPoly
  | [], _ => []
  | a :: p, q => qadd (q.map fun b => a * b) ((0 : ℚ) :: qmul p q)

def qderiv (p : QPoly) : QPoly :=
  ((p.zip (List.range p.length)).drop 1).map fun ai => ai.1 * (ai.2 : ℚ)

def qdivModAux : ℕ → QPoly → QPoly → QPoly × QPoly
  | 0, r, _ => ([], qtrim r)
  | fuel + 1, r, d =>
    let r' := qtrim r
    if r'.length < d.length ∨ d = [] then ([], r')
    else
      let k := r'.length - d.length
      let c := r'.getLastD 0 / d.getLastD 0
      let sub := qadd r' (List.replicate k (0 : ℚ) ++ d.map fun a => -(c * a))
      let qr := qdivModAux fuel sub d
      (qadd (List.replicate k (0 : ℚ) ++ [c]) qr.1, qr.2)

def qdivMod (p d : QPoly) : QPoly × QPoly :=
  qdivModAux (p.length + 1) p (qtrim d)

def qgcdAux : ℕ → QPoly → QPoly → QPoly
  | 0, p, _ => qtrim p
  | fuel + 1, p, q =>
    let q' := qtrim q
    if q' = [] then qtrim p else qgcdAux fuel q' (qdivMod p q').2

def qmonicize (p : QPoly) : QPoly :=
  (qtrim p).map fun a => a / (qtrim p).getLastD 1

def qgcd (p q : QPoly) : QPoly :=
  qmonicize (qgcdAux (p.length + q.length + 1) p q)

def qradical (p : QPoly) : QPoly :=
  (qdivMod p (qgcd p (qderiv p))).1

def btrim (f : BPoly) : BPoly :=
  ((f.map qtrim).reverse.dropWhile fun c => decide (c = ([] : QPoly))).reverse

def badd : BPoly → BPoly → BPoly
  | [], q => q
  | p, [] => p
  | a :: p, b :: q => qadd a b :: badd p q

def bmul : BPoly → BPoly → BPoly
  | [], _ => []
  | a :: p, q => badd (q.map fun b => qmul a b) (([] : QPoly) :: bmul p q)

def bderivY (f : BPoly) : BPoly :=
  ((f.zip (List.range f.length)).drop 1).map fun ai => qmul ai.1 [(ai.2 : ℚ)]

def sylvester (p q : BPoly) : List (List QPoly) :=
  let m := p.length - 1
  let n := q.length - 1
  ((List.range n).map fun i =>
    List.replicate i ([] : QPoly) ++ p.reverse ++ List.replicate (n - 1 - i) ([] : QPoly)) ++
  ((List.range m).map fun i =>
    List.replicate i ([] : QPoly) ++ q.reverse ++ List.replicate (m - 1 - i) ([] : QPoly))

def detF : ℕ → List (List QPoly) → QPoly
  | 0, _ => []
  | _ + 1, [] => [1]
  | fuel + 1, row :: rest =>
    (List.range row.length).foldl
      (fun acc j =>
        let e := row.getD j []
        if qtrim e = [] then acc
        else
          let t := qmul e (detF fuel (rest.map fun r => r.eraseIdx j))
          if j % 2 = 0 then qadd acc t else qadd acc (qmul [(-1 : ℚ)] t))
      []

def detQ (mat : List (List QPoly)) : QPoly := detF (mat.length + 1) mat

def resultantY (p q : BPoly) : QPoly :=
  qtrim (detQ (sylvester (btrim p) (btrim q)))

def qcpow (c : ℚ) : ℕ → ℚ
  | 0 => 1
  | n + 1 => c * qcpow c n

def qpowP (p : QPoly) : ℕ → QPoly
  | 0 => [1]
  | n + 1 => qmul p (qpowP p n)

def discriminantY (f : BPoly) : Option QPoly :=
  let f' := btrim f
  let d := btrim (bderivY f')
  let n := f'.length - 1
  let k := d.length - 1
  let u : ℚ := if n % 4 = 2 ∨ n % 4 = 3 then -1 else 1
  let r := resultantY f' d
  let lc := qtrim (f'.getLastD [])
  if k + 2 ≤ n then
    some (qtrim (qmul (qmul [u] r) (qpowP lc (n - k - 2))))
  else
    match lc with
    | [c] => some (qtrim (qmul [u * (qcpow c (k + 2 - n))⁻¹] r))
    | _ => none

def discrimPoly (f : BPoly) : Option QPoly :=
  match discriminantY f with
  | none => none
  | some dsc => some (qradical (resultantY [dsc] f))

def fC5 : BPoly :=
  bmul [[-1, 0, 0, 1], [], [], [1]] [[0, 1], [1]]

/-- Evaluation of a rational coefficient list (ascending powers) at a point of
a division ring — the model of root extraction in `QQbar` (line 178). -/
def qeval {F : Type*} [DivisionRing F] (p : QPoly) (z : F) : F :=
  p.foldr (fun a acc => (Rat.cast a : F) + z * acc) 0

unseal Rat.mul Rat.add Rat.sub Rat.inv Rat.ofScientific in
set_option maxRecDepth 100000 in
/-- **C5.** `discrim` (lines 175–178) computes
`F[x](f.discriminant(y).resultant(f, y)).radical()` and returns its roots in
`QQbar` without multiplicities.  For `f = (y^3 + x^3 - 1)(x + y)` that radical
evaluates to `531441·(x^3 - 1)`; it is squarefree (its gcd with its derivative
is 1), and its complex root set is exactly the three cube roots of unity
`{1, -1/2 + (√3/2)·i, -1/2 - (√3/2)·i}`. -/
theorem discrim_cube_roots_of_unity :
    discrimPoly fC5 = some [-531441, 0, 0, 531441] ∧
    qgcd [-531441, 0, 0, 531441] (qderiv [-531441, 0, 0, 531441]) = [1] ∧
    {z : ℂ | qeval ([-531441, 0, 0, 531441] : QPoly) z = 0} =
      {1, -1/2 + (Real.sqrt 3 / 2 : ℝ) * Complex.I,
        -1/2 - (Real.sqrt 3 / 2 : ℝ) * Complex.I} := by
  refine ⟨by decide, by decide, ?_⟩
  have h3 : ((Real.sqrt 3 : ℝ) : ℂ) * ((Real.sqrt 3 : ℝ) : ℂ) = 3 := by
    norm_cast
    exact Real.mul_self_sqrt (by norm_num)
  have hI := Complex.I_mul_I
  have key : ∀ z : ℂ, qeval ([-531441, 0, 0, 531441] : QPoly) z =
      531441 * ((z - 1) * (z - (-1/2 + (Real.sqrt 3 / 2 : ℝ) * Complex.I)) *
        (z - (-1/2 - (Real.sqrt 3 / 2 : ℝ) * Complex.I))) := by
    intro z
    show (Rat.cast (-531441 : ℚ) : ℂ) + z * ((Rat.cast (0 : ℚ) : ℂ) +
      z * ((Rat.cast (0 : ℚ) : ℂ) + z * ((Rat.cast (531441 : ℚ) : ℂ) + z * 0))) = _
    push_cast
    linear_combination (531441 * (z - 1) * (Complex.I * Complex.I) / 4) * h3 +
      (531441 * (z - 1) * (3 / 4)) * hI
  ext z
  simp only [Set.mem_setOf_eq, key z, Set.mem_insert_iff, Set.mem_singleton_iff,
    mul_eq_zero, sub_eq_zero]
  simp [show (531441 : ℂ) ≠ 0 from by norm_num, or_assoc]

end ZVK
